import Mathlib

/-!
Verification development for the Grevling parametric batch-experiment runner.

Each Python construct relevant to the specification claims is shallowly
embedded as an executable Lean definition, translated from the source files
(`grevling/parameters.py`, `grevling/util.py`, `grevling/script.py`,
`grevling/instance.py`, `grevling/workflow/__init__.py`,
`grevling/workflow/local.py`, `grevling/context.py`, `grevling/typing.py`,
`grevling/capture.py`).  Python floats are modelled as exact rationals,
machine integers as `Int`/`Nat`, and raising an exception as returning
`none` / `Except.error`.
-/

namespace Grevling

/-! ## Graded parameters (`grevling/parameters.py`, `GradedParameter`)

`GradedParameter.__init__` computes
`step = (hi - lo) * (1 - grading) / (1 - grading ** (num - 1))`, then builds
`values = [lo]` followed by `num - 1` iterations of
`values.append(values[-1] + step); step *= grading`.

Python `**` with a negative exponent raises `ZeroDivisionError` on base `0`,
and float division by `0.0` raises `ZeroDivisionError`; both are modelled as
`none`.  `num` is an `int` in the schema, so the exponent `num - 1` is an
integer. -/

/-- Python `g ** e` for a rational base and integer exponent: raises
(`none`) exactly when the base is zero and the exponent negative. -/
def pyPow (g : ℚ) (e : ℤ) : Option ℚ :=
  if g = 0 ∧ e < 0 then none else some (g ^ e)

/-- The loop body of `GradedParameter.__init__`: starting from the last
value and the current step, append `n` further values, multiplying the step
by `grading` after each append. -/
def gradedTail (grading : ℚ) : ℚ → ℚ → ℕ → List ℚ
  | _, _, 0 => []
  | last, step, n + 1 => (last + step) :: gradedTail grading (last + step) (step * grading) n

/-- `GradedParameter.__init__`: the produced `values` list, or `none` when
the division raises `ZeroDivisionError`. -/
def gradedValues (lo hi : ℚ) (num : ℤ) (grading : ℚ) : Option (List ℚ) :=
  (pyPow grading (num - 1)).bind fun p =>
    if 1 - p = 0 then none
    else
      let step := (hi - lo) * (1 - grading) / (1 - p)
      some (lo :: gradedTail grading lo step (num - 1).toNat)

/-! ## Cartesian product (`grevling/util.py` `dict_product`,
`grevling/parameters.py` `ParameterSpace.subspace`)

`dict_product(names, iterables)` yields `dict(zip(names, values))` for
`values in itertools.product(*iterables)`; `itertools.product` iterates the
leftmost iterable as the outermost (slowest) axis. -/

/-- `itertools.product(*iterables)` as a list of tuples, leftmost axis
outermost (the last axis varies fastest). -/
def listProd {α : Type} : List (List α) → List (List α)
  | [] => [[]]
  | l :: ls => l.flatMap fun x => (listProd ls).map (x :: ·)

/-- `util.dict_product`: one association list (Python dict built by
`dict(zip(names, values))`) per element of the product. -/
def dict_product {α : Type} (names : List String) (iterables : List (List α)) :
    List (List (String × α)) :=
  (listProd iterables).map fun vs => names.zip vs

/-- A `ParameterSpace` is an insertion-ordered mapping from names to value
lists (a Python dict of `Parameter`s, each holding its `values`). -/
def ParameterSpace (α : Type) : Type := List (String × List α)

/-- `ParameterSpace.subspace(*names)`: look up each listed parameter
(`self[name]`, raising `KeyError` modelled as `none`) and yield the dict
product. -/
def subspace {α : Type} (space : ParameterSpace α) (names : List String) :
    Option (List (List (String × α))) :=
  (names.mapM fun n => space.lookup n).map fun params => dict_product names params

/-- Product of the lengths of the value lists, the size of the subspace. -/
def prodLens {α : Type} (ls : List (List α)) : ℕ :=
  (ls.map List.length).prod

/-- Mixed-radix decoding of a product index, written from the claim: the
listed axes are major-to-minor in order, the last axis varies fastest, and
each axis takes its values in index-ascending order. -/
def decodeIx {α : Type} [Inhabited α] : List (List α) → ℕ → List α
  | [], _ => []
  | l :: ls, i => l.getD (i / prodLens ls % l.length) default :: decodeIx ls (i % prodLens ls)

/-! ## Command execution (`grevling/script.py`, `Command.execute`)

The retry loop is
`while True: result = subprocess.run(command, **kwargs);
if self.retry_on_fail and result.returncode: continue; break`,
followed by `return self.allow_failure` when the final return code is
nonzero and `return True` otherwise.

The subprocess is external state: it is modelled by the sequence of exit
codes of the successive invocations.  The loop has no iteration bound, so it
is embedded with explicit fuel; `none` means the loop has not terminated
within the given fuel. -/

/-- The `while True` loop of `Command.execute`, returning the number of the
final invocation (counting from 1) and its exit code. -/
def executeAttempts (retry : Bool) (codes : ℕ → ℤ) : ℕ → ℕ → Option (ℕ × ℤ)
  | 0, _ => none
  | fuel + 1, i =>
    let c := codes i
    if retry ∧ c ≠ 0 then executeAttempts retry codes fuel (i + 1) else some (i + 1, c)

/-- `Command.execute`: run the retry loop, then return
`allow_failure` if the final exit code is nonzero and `True` otherwise.
The result carries the number of subprocess invocations performed. -/
def commandExecute (retry allowFailure : Bool) (codes : ℕ → ℤ) (fuel : ℕ) :
    Option (ℕ × Bool) :=
  (executeAttempts retry codes fuel 0).map fun nc =>
    (nc.1, if nc.2 ≠ 0 then allowFailure else true)

/-! ## Instance status machine (`grevling/instance.py`,
`grevling/workflow/local.py`)

Each operation is embedded as a function from the instance's persisted
status to the list of status values it writes, in order; a failed `assert`
is `none`.  `Instance.prepare` asserts `status == Created` and writes
`Prepared`; `Instance.download` asserts `Finished` and writes `Downloaded`;
`Instance.capture` asserts `Downloaded` and writes nothing;
`RunInstance.apply` writes `Started` then `Finished` with no guard. -/

inductive Status where
  | created | prepared | started | finished | downloaded
deriving DecidableEq

/-- Position of a status in the lifecycle order
`Created < Prepared < Started < Finished < Downloaded`. -/
def Status.rank : Status → ℕ
  | .created => 0
  | .prepared => 1
  | .started => 2
  | .finished => 3
  | .downloaded => 4

/-- `Instance.prepare`: requires `Created`, persists `Prepared`. -/
def prepareOp (s : Status) : Option (List Status) :=
  if s = .created then some [.prepared] else none

/-- `Instance.download`: requires `Finished`, persists `Downloaded`. -/
def downloadOp (s : Status) : Option (List Status) :=
  if s = .finished then some [.downloaded] else none

/-- `Instance.capture`: requires `Downloaded`, writes no status. -/
def captureOp (s : Status) : Option (List Status) :=
  if s = .downloaded then some [] else none

/-- `RunInstance.apply`: writes `Started`, runs the script, writes
`Finished`; there is no status assertion. -/
def runApplyOp (_ : Status) : Option (List Status) :=
  some [.started, .finished]

/-- The writes of an operation never move the persisted status backwards:
starting from `s`, every successive write has rank at least the previous
status's rank. -/
def MonotonicFrom (s : Status) (ws : List Status) : Prop :=
  List.Chain (fun a b => a.rank ≤ b.rank) s ws

/-! ## Pipeline (`grevling/workflow/__init__.py`)

`PipeSegment.work` pulls items, calls `apply`, forwards the result and
increments `npiped` on success; when `apply` raises, the item is marked done
and dropped, and the worker continues with the next item.  The asyncio
dataflow is modelled by its deterministic item flow: a stage is a function
`α → Option α` (`none` = `apply` raised) and processes the list of items
forwarded by the previous stage.  `Pipeline._run` returns
`self.pipes[-1].npiped == ninputs`; `self.pipes[-1]` raises on an empty
pipeline, modelled as `none`. -/

/-- Items a stage forwards to its output queue. -/
def stageWork {α β : Type} (apply : α → Option β) (items : List α) : List β :=
  items.filterMap apply

/-- A stage's `npiped` counter: the number of items it completed. -/
def npiped {α β : Type} (apply : α → Option β) (items : List α) : ℕ :=
  (stageWork apply items).length

/-- The items that complete every stage of the pipeline in order. -/
def pipelineOutputs {α : Type} (stages : List (α → Option α)) (inputs : List α) : List α :=
  stages.foldl (fun items f => stageWork f items) inputs

/-- Sequential composition of the stages applied to one item: the item
completes the pipeline iff every stage's `apply` succeeds on it. -/
def composeStages {α : Type} (stages : List (α → Option α)) (x : α) : Option α :=
  stages.foldl (fun acc f => acc.bind f) (some x)

/-- `Pipeline._run`: push all inputs, run the stages, and return
`pipes[-1].npiped == ninputs`. -/
def pipelineRun {α : Type} (stages : List (α → Option α)) (inputs : List α) : Option Bool :=
  match stages with
  | [] => none
  | _ => some ((pipelineOutputs stages inputs).length == inputs.length)

/-! ## Context evaluation (`grevling/context.py`,
`ContextProvider.raw_evaluate`)

`raw_evaluate` seeds the evaluator's names with the input context overlaid
on the constants not already bound, then runs each evaluable in declaration
order, writing its result into both the names and the context; a
`NameNotDefined` error is skipped or re-raised according to
`allowed_missing`; finally each constant not bound in the (updated) context
is added.  The `simpleeval` expression engine is external: an evaluable is
either a literal value (a non-`str` entry, used as-is) or an abstract
expression reading the evaluator's names, failing with the missing name. -/

/-- One entry of `ContextProvider.evaluables`: a literal (non-string)
value, or an expression evaluated against the current names
(`Except.error n` models `NameNotDefined` with `error.name = n`). -/
inductive EvalCode (α : Type) where
  | literal (v : α)
  | expr (f : (String → Option α) → Except String α)

/-- The `allowed_missing` argument: `False` (re-raise), `True` (skip all),
or a collection of names. -/
inductive AllowMissing where
  | strict
  | all
  | ofSet (s : List String)

/-- Constants and evaluables of a `ContextProvider`, in declaration
order. -/
structure Provider (α : Type) where
  constants : List (String × α)
  evaluables : List (String × EvalCode α)

/-- Update one binding of a string-keyed mapping. -/
def bindName {α : Type} (m : String → Option α) (k : String) (v : α) :
    String → Option α :=
  fun x => if x = k then some v else m x

/-- Evaluate one evaluable against the current names. -/
def evalCodeRun {α : Type} (code : EvalCode α) (names : String → Option α) :
    Except String α :=
  match code with
  | .literal v => .ok v
  | .expr f => f names

/-- The `for name, code in self.evaluables.items()` loop of
`raw_evaluate`, threading the evaluator names, the context and the
`allowed_missing` set. -/
def evalLoop {α : Type} :
    List (String × EvalCode α) → (String → Option α) → (String → Option α) →
      AllowMissing → Except String ((String → Option α) × (String → Option α))
  | [], names, ctx, _ => .ok (names, ctx)
  | (name, code) :: rest, names, ctx, allowed =>
    match evalCodeRun code names with
    | .ok v => evalLoop rest (bindName names name v) (bindName ctx name v) allowed
    | .error missing =>
      match allowed with
      | .all => evalLoop rest names ctx .all
      | .strict => .error missing
      | .ofSet s =>
        if missing ∈ s then evalLoop rest names ctx (.ofSet (name :: s))
        else .error missing

/-- The trailing `if add_constants` block: bind each constant whose key is
not in the context. -/
def addConstantsTo {α : Type} (constants : List (String × α))
    (ctx : String → Option α) : String → Option α :=
  constants.foldl (fun c kv => if (c kv.1).isNone then bindName c kv.1 kv.2 else c) ctx

/-- `ContextProvider.raw_evaluate`. -/
def rawEvaluate {α : Type} (p : Provider α) (ctx : String → Option α)
    (allowed : AllowMissing) (addConstants : Bool) :
    Except String (String → Option α) :=
  let names := fun k =>
    match ctx k with
    | some v => some v
    | none => p.constants.lookup k
  match evalLoop p.evaluables names ctx allowed with
  | .error e => .error e
  | .ok nc => .ok (if addConstants then addConstantsTo p.constants nc.2 else nc.2)

/-! ## Decimal digit strings

Shared machinery for `datetime.strftime`/`strptime` and Python's numeric
string conversions: big-endian decimal rendering with zero padding, and
parsing of digit runs. -/

/-- Big-endian decimal digits of a natural number (empty for `0`). -/
def natChars (n : ℕ) : List Char :=
  (Nat.digits 10 n).reverse.map Nat.digitChar

/-- Zero-pad a number to width `w`, as `strftime` does for its numeric
directives. -/
def padNum (w n : ℕ) : List Char :=
  List.replicate (w - (natChars n).length) (Char.ofNat 48) ++ natChars n

/-- Numeric value of a run of decimal digit characters. -/
def digitsVal (cs : List Char) : ℕ :=
  cs.foldl (fun a c => 10 * a + (c.toNat - 48)) 0

/-- Parse a nonempty run of decimal digits. -/
def parseDigits (cs : List Char) : Option ℕ :=
  if cs ≠ [] ∧ cs.all Char.isDigit then some (digitsVal cs) else none

/-- Parse a nonempty digit run of width at most `w`, as the `strptime`
numeric directives do. -/
def parseField (w : ℕ) (cs : List Char) : Option ℕ :=
  if cs.length ≤ w then parseDigits cs else none

/-- Split a character list at the first occurrence of `c`; `none` when `c`
does not occur. -/
def splitOnChar (c : Char) : List Char → Option (List Char × List Char)
  | [] => none
  | x :: xs =>
    if x = c then some ([], xs)
    else (splitOnChar c xs).map fun p => (x :: p.1, p.2)

/-! ## Datetimes (`grevling/typing.py`, `DateTime`)

`DateTime.coerce` parses strings with
`datetime.strptime(value, '%Y-%m-%d %H:%M:%S.%f')` and passes native
datetimes through; `DateTime.to_json` formats with the same pattern.
A Python `datetime` always holds field values validated by its
constructor, with microsecond precision. -/

structure DT where
  year : ℕ
  month : ℕ
  day : ℕ
  hour : ℕ
  minute : ℕ
  second : ℕ
  micro : ℕ
deriving DecidableEq

/-- Gregorian leap year, as `calendar.isleap`. -/
def isLeap (y : ℕ) : Bool :=
  y % 4 = 0 && (y % 100 ≠ 0 || y % 400 = 0)

/-- Days in a month, as `calendar.monthrange` / the `datetime`
constructor's validation. -/
def daysInMonth (y m : ℕ) : ℕ :=
  if m = 2 then (if isLeap y then 29 else 28)
  else if m = 4 ∨ m = 6 ∨ m = 9 ∨ m = 11 then 30
  else 31

/-- The field ranges the `datetime` constructor enforces. -/
def DT.validB (d : DT) : Bool :=
  1 ≤ d.year && d.year ≤ 9999 &&
  1 ≤ d.month && d.month ≤ 12 &&
  1 ≤ d.day && d.day ≤ daysInMonth d.year d.month &&
  d.hour ≤ 23 && d.minute ≤ 59 && d.second ≤ 59 && d.micro ≤ 999999

/-- `value.strftime('%Y-%m-%d %H:%M:%S.%f')` (`DateTime.to_string`). -/
def dtFormat (d : DT) : List Char :=
  padNum 4 d.year ++ Char.ofNat 45 ::
    (padNum 2 d.month ++ Char.ofNat 45 ::
      (padNum 2 d.day ++ Char.ofNat 32 ::
        (padNum 2 d.hour ++ Char.ofNat 58 ::
          (padNum 2 d.minute ++ Char.ofNat 58 ::
            (padNum 2 d.second ++ Char.ofNat 46 :: padNum 6 d.micro)))))

/-- `datetime.strptime(value, '%Y-%m-%d %H:%M:%S.%f')`: split on the
literal separators, parse each bounded digit run (`%f` right-pads to six
digits), and validate the ranges as the `datetime` constructor does. -/
def dtParse (cs : List Char) : Option DT :=
  (splitOnChar (Char.ofNat 45) cs).bind fun p1 =>
  (parseField 4 p1.1).bind fun year =>
  (splitOnChar (Char.ofNat 45) p1.2).bind fun p2 =>
  (parseField 2 p2.1).bind fun month =>
  (splitOnChar (Char.ofNat 32) p2.2).bind fun p3 =>
  (parseField 2 p3.1).bind fun day =>
  (splitOnChar (Char.ofNat 58) p3.2).bind fun p4 =>
  (parseField 2 p4.1).bind fun hour =>
  (splitOnChar (Char.ofNat 58) p4.2).bind fun p5 =>
  (parseField 2 p5.1).bind fun minute =>
  (splitOnChar (Char.ofNat 46) p5.2).bind fun p6 =>
  (parseField 2 p6.1).bind fun second =>
  (parseField 6 p6.2).bind fun microRaw =>
  let d : DT :=
    { year := year, month := month, day := day, hour := hour,
      minute := minute, second := second,
      micro := microRaw * 10 ^ (6 - p6.2.length) }
  if d.validB then some d else none

/-! ## Python values and the type layer (`grevling/typing.py`)

Python values reaching the type layer are modelled by `PyValue`; floats are
exact rationals (CPython's `repr`/JSON round trip of a float is exact, so
the JSON encoding of a float is the identity at this level).  A value is
well formed (`wfB`) when every `datetime` it contains satisfies the
constructor-validated ranges — Python cannot build an invalid one. -/

inductive PyValue where
  | int (n : ℤ)
  | float (q : ℚ)
  | str (s : String)
  | bool (b : Bool)
  | datetime (d : DT)
  | list (l : List PyValue)

mutual

def PyValue.wfB : PyValue → Bool
  | .datetime d => d.validB
  | .list l => PyValue.wfListB l
  | _ => true

def PyValue.wfListB : List PyValue → Bool
  | [] => true
  | v :: vs => PyValue.wfB v && PyValue.wfListB vs

end

/-- Python `int(s)` on a string: optional sign, then a nonempty digit
run (whitespace/underscore lenience elided). -/
def parseIntStr (cs : List Char) : Option ℤ :=
  match cs with
  | c :: rest =>
    if c = Char.ofNat 45 then (parseDigits rest).map fun n => -(n : ℤ)
    else if c = Char.ofNat 43 then (parseDigits rest).map fun n => (n : ℤ)
    else (parseDigits cs).map fun n => (n : ℤ)
  | [] => none

/-- Fractional digits after the decimal point as an exact rational. -/
def fracVal (cs : List Char) : ℚ :=
  (digitsVal cs : ℚ) / (10 : ℚ) ^ cs.length

/-- Python `float(s)` on a string without sign or exponent:
`digits`, `digits.digits`, `digits.` or `.digits`. -/
def parseFloatCore (cs : List Char) : Option ℚ :=
  match splitOnChar (Char.ofNat 46) cs with
  | none => (parseDigits cs).map fun n => (n : ℚ)
  | some (intPart, fracPart) =>
    if intPart = [] then (parseDigits fracPart).map fun _ => fracVal fracPart
    else if fracPart = [] then (parseDigits intPart).map fun n => (n : ℚ)
    else
      (parseDigits intPart).bind fun n =>
        (parseDigits fracPart).map fun _ => (n : ℚ) + fracVal fracPart

/-- Python `float(s)` with optional sign and optional decimal exponent
(`inf`/`nan` forms elided). -/
def parseFloatStr (cs : List Char) : Option ℚ :=
  let signed : List Char → Option ℚ := fun body =>
    match body with
    | c :: rest =>
      if c = Char.ofNat 45 then (parseFloatCore rest).map fun q => -q
      else if c = Char.ofNat 43 then parseFloatCore rest
      else parseFloatCore body
    | [] => none
  match splitOnChar (Char.ofNat 101) cs with
  | none => signed cs
  | some (mantissa, expo) =>
    (signed mantissa).bind fun m =>
      match expo with
      | c :: rest =>
        if c = Char.ofNat 45 then (parseDigits rest).map fun n => m / (10 : ℚ) ^ n
        else if c = Char.ofNat 43 then (parseDigits rest).map fun n => m * (10 : ℚ) ^ n
        else (parseDigits expo).map fun n => m * (10 : ℚ) ^ n
      | [] => none

/-- Truncation toward zero, as Python `int(float)`. -/
def pyTrunc (q : ℚ) : ℤ :=
  if 0 ≤ q then ⌊q⌋ else -⌊-q⌋

/-- Decimal string of an integer. -/
def intChars (n : ℤ) : List Char :=
  if n < 0 then Char.ofNat 45 :: padNum 1 n.natAbs else padNum 1 n.natAbs

/-- Stand-in for CPython's shortest round-tripping decimal `repr` of a
float; no claim inspects the rendered text. -/
def floatChars (q : ℚ) : List Char :=
  if q.den = 1 then intChars q.num ++ [Char.ofNat 46, Char.ofNat 48]
  else intChars q.num ++ Char.ofNat 47 :: padNum 1 q.den

/-- `str(datetime)`: ISO format with a space separator; the microsecond
part is omitted when zero. -/
def dtStrPy (d : DT) : List Char :=
  if d.micro = 0 then
    padNum 4 d.year ++ Char.ofNat 45 ::
      (padNum 2 d.month ++ Char.ofNat 45 ::
        (padNum 2 d.day ++ Char.ofNat 32 ::
          (padNum 2 d.hour ++ Char.ofNat 58 ::
            (padNum 2 d.minute ++ Char.ofNat 58 :: padNum 2 d.second))))
  else dtFormat d

mutual

/-- Python `str(value)` (string escaping inside list `repr` elided). -/
def pyStr : PyValue → List Char
  | .int n => intChars n
  | .float q => floatChars q
  | .str s => s.data
  | .bool b =>
    if b then [Char.ofNat 84, Char.ofNat 114, Char.ofNat 117, Char.ofNat 101]
    else [Char.ofNat 70, Char.ofNat 97, Char.ofNat 108, Char.ofNat 115, Char.ofNat 101]
  | .datetime d => dtStrPy d
  | .list l => Char.ofNat 91 :: pyReprSeq l ++ [Char.ofNat 93]

/-- Python `repr(value)` as used inside a list's `str`. -/
def pyReprElt : PyValue → List Char
  | .str s => Char.ofNat 39 :: s.data ++ [Char.ofNat 39]
  | v => pyStr v

def pyReprSeq : List PyValue → List Char
  | [] => []
  | [v] => pyReprElt v
  | v :: vs => pyReprElt v ++ Char.ofNat 44 :: Char.ofNat 32 :: pyReprSeq vs

end

/-- The scalar type tags of `grevling/typing.py` (`Integer`, `Float`,
`String`, `Boolean`, `DateTime`). -/
inductive SType where
  | int | float | str | bool | datetime
deriving DecidableEq

/-- A declarable Grevling type: a scalar, or `List` of a scalar
(`List.eltype : Scalar`). -/
inductive GType where
  | scalar (t : SType)
  | list (t : SType)
deriving DecidableEq

/-- `Type.is_list`. -/
def GType.is_list : GType → Bool
  | .scalar _ => false
  | .list _ => true

/-- `Integer.coerce`, i.e. Python `int(value)`; note `bool` is an `int`
subclass. -/
def coerceInt : PyValue → Option PyValue
  | .int n => some (.int n)
  | .bool b => some (.int (if b then 1 else 0))
  | .float q => some (.int (pyTrunc q))
  | .str s => (parseIntStr s.data).map .int
  | _ => none

/-- `Float.coerce`, i.e. Python `float(value)`. -/
def coerceFloat : PyValue → Option PyValue
  | .int n => some (.float (n : ℚ))
  | .bool b => some (.float (if b then 1 else 0))
  | .float q => some (.float q)
  | .str s => (parseFloatStr s.data).map .float
  | _ => none

/-- `String.coerce`: booleans become `str(int(value))`, everything else
`str(value)`. -/
def coerceStr : PyValue → Option PyValue
  | .bool b => some (.str (if b then "1" else "0"))
  | v => some (.str ⟨pyStr v⟩)

/-- `Boolean.coerce`: strings become `bool(int(value))`, everything else
Python `bool(value)` truthiness. -/
def coerceBool : PyValue → Option PyValue
  | .str s => (parseIntStr s.data).map fun n => .bool (decide (n ≠ 0))
  | .int n => some (.bool (decide (n ≠ 0)))
  | .bool b => some (.bool b)
  | .float q => some (.bool (decide (q ≠ 0)))
  | .datetime _ => some (.bool true)
  | .list l => some (.bool (!l.isEmpty))

/-- `DateTime.coerce`: parse strings with the fixed format, pass native
datetimes through, raise on anything else. -/
def coerceDT : PyValue → Option PyValue
  | .str s => (dtParse s.data).map .datetime
  | .datetime d => some (.datetime d)
  | _ => none

/-- `Scalar.coerce` dispatched on the type tag. -/
def SType.coerce : SType → PyValue → Option PyValue
  | .int, v => coerceInt v
  | .float, v => coerceFloat v
  | .str, v => coerceStr v
  | .bool, v => coerceBool v
  | .datetime, v => coerceDT v

mutual

/-- `Type.coerce`: scalars coerce directly; `List.coerce` maps the element
coercion over a list and wraps a non-list value as a singleton. -/
def GType.coerce : GType → PyValue → Option PyValue
  | .scalar t, v => t.coerce v
  | .list t, .list l => (coerceEach t l).map .list
  | .list t, v => (t.coerce v).map fun w => .list [w]

def coerceEach : SType → List PyValue → Option (List PyValue)
  | _, [] => some []
  | t, v :: vs =>
    (t.coerce v).bind fun w => (coerceEach t vs).map fun ws => w :: ws

end

/-- `Scalar.to_json = self.json(self.coerce(value))`, with the per-class
overrides: `DateTime.to_json` is `to_string(value)` and `Boolean` applies
`bool` to the coerced value. -/
def SType.to_json : SType → PyValue → Option PyValue
  | .int, v => (coerceInt v).bind coerceInt
  | .float, v => (coerceFloat v).bind coerceFloat
  | .str, v => (coerceStr v).map fun w => .str ⟨pyStr w⟩
  | .bool, v => (coerceBool v).bind coerceBool
  | .datetime, v =>
    match v with
    | .datetime d => some (.str ⟨dtFormat d⟩)
    | _ => none

/-- `Type.to_json`: `List.to_json` maps the element encoding over the
value (which is a list after coercion). -/
def GType.to_json : GType → PyValue → Option PyValue
  | .scalar t, v => t.to_json v
  | .list t, .list l => (toJsonEach t l).map .list
  | .list _, _ => none
where
  toJsonEach : SType → List PyValue → Option (List PyValue)
  | _, [] => some []
  | t, v :: vs =>
    (t.to_json v).bind fun w => (toJsonEach t vs).map fun ws => w :: ws

/-- A `TypeManager`: a mapping from declared names to types. -/
def TypeManager : Type := List (String × GType)

/-- `TypeManager.coerce(key, value)`. -/
def tmCoerce (tm : TypeManager) (key : String) (v : PyValue) : Option PyValue :=
  (tm.lookup key).bind fun t => t.coerce v

/-- `TypeManager.to_json(key, value)` — the JSON encoding of a value. -/
def tmEncode (tm : TypeManager) (key : String) (v : PyValue) : Option PyValue :=
  (tm.lookup key).bind fun t => t.to_json v

/-- Modelled from the spec: `decodeJSON(name, json)` is absent from
`src/grevling/typing.py`; decoding a JSON-loaded value is realised as the
declared type's coercion, as the ingestion paths (`Object.coerce`,
`PersistentObject.__init__`) do. -/
def tmDecode (tm : TypeManager) (key : String) (j : PyValue) : Option PyValue :=
  (tm.lookup key).bind fun t => t.coerce j

/-! ## Capture engine (`grevling/capture.py`)

`Capture.find_in` runs `self._regex.finditer(string)` and keeps the first
match, the last match, or all matches according to `self._mode`; for each
kept match it collects every entry of `match.groupdict()`.  The `re` engine
is external: a capture application is modelled by the list of its matches'
group dictionaries (each carrying the pattern's named groups, as
`groupdict` does).

`CaptureCollection.collect` coerces the value through the given type, the
registered type for the name, or `AnyType()`; list types append
(`setdefault(name, []).append`), scalars overwrite.  `AnyType` and
`Capture.add_types` belong to a revision of the type layer that is not in
the source tree and are modelled from the spec. -/

inductive CaptureMode where
  | first | last | all
deriving DecidableEq

/-- The type a collection step runs under: a declared type, or the
`AnyType()` fallback of `CaptureCollection.collect` — modelled from the
spec as the identity coercion on an unknown-typed scalar (missing from
`src/grevling/capture.py`'s revision of the type layer). -/
inductive CoType where
  | typed (t : GType)
  | anyT

def CoType.coerce : CoType → PyValue → Option PyValue
  | .typed t, v => t.coerce v
  | .anyT, v => some v

def CoType.is_list : CoType → Bool
  | .typed t => t.is_list
  | .anyT => false

/-- The mutable `CaptureCollection` contents. -/
def Collector : Type := String → Option PyValue

/-- `CaptureCollection.collect(name, value, tp)`. -/
def collect (types : List (String × CoType)) (col : Collector) (name : String)
    (v : PyValue) (tp : Option CoType) : Option Collector :=
  let gtp := tp.getD ((types.lookup name).getD .anyT)
  (gtp.coerce v).bind fun w =>
    if gtp.is_list then
      match col name with
      | none => some (bindName col name (.list [w]))
      | some (.list l) => some (bindName col name (.list (l ++ [w])))
      | some _ => none
    else some (bindName col name w)

/-- The `for name, value in match.groupdict().items()` loop of
`Capture.find_in` for one kept match. -/
def collectMatch (types : List (String × CoType)) (tp : Option CoType) :
    Collector → List (String × String) → Option Collector
  | col, [] => some col
  | col, (k, v) :: rest =>
    (collect types col k (.str v) tp).bind fun col2 => collectMatch types tp col2 rest

/-- The outer `for match in filtered` loop in `all` mode. -/
def collectAllMatches (types : List (String × CoType)) (tp : Option CoType) :
    Collector → List (List (String × String)) → Option Collector
  | col, [] => some col
  | col, m :: ms =>
    (collectMatch types tp col m).bind fun col2 => collectAllMatches types tp col2 ms

/-- `Capture.find_in`: dispatch on the mode; `first`/`last` return without
collecting when there is no match, `all` iterates every match with the type
hint upgraded to `List`. -/
def findIn (types : List (String × CoType)) (mode : CaptureMode) (tp : Option SType)
    (mlist : List (List (String × String))) (col : Collector) : Option Collector :=
  match mode with
  | .first =>
    match mlist with
    | [] => some col
    | m :: _ => collectMatch types (tp.map fun t => .typed (.scalar t)) col m
  | .last =>
    match mlist.getLast? with
    | none => some col
    | some m => collectMatch types (tp.map fun t => .typed (.scalar t)) col m
  | .all =>
    collectAllMatches types (tp.map fun t => CoType.typed (.list t)) col mlist

/-- Modelled from the spec: the registered type of a captured name is the
hint if present and `String` otherwise; `all` mode upgrades it to the
`List` of that type. -/
def capRegType (mode : CaptureMode) (tp : Option SType) : CoType :=
  match mode with
  | .all => CoType.typed (.list (tp.getD .str))
  | _ => CoType.typed (.scalar (tp.getD .str))

/-- Modelled from the spec: `Capture.add_types` (missing from the
source tree's `capture.py` revision, called from `script.py`) registers
each captured name with `capRegType`. -/
def addTypes (gnames : List String) (mode : CaptureMode) (tp : Option SType) :
    List (String × CoType) :=
  gnames.map fun n => (n, capRegType mode tp)

/-- The length of the list a collector holds under a name: `0` when the
name is unbound, `none` when the binding is not a list (appending to it
would raise). -/
def listLen (col : Collector) (k : String) : Option ℕ :=
  match col k with
  | none => some 0
  | some (.list l) => some l.length
  | some _ => none

/-! ## Theorems -/

/-- C7, counterexample: `RunInstance.apply` has no status guard, so applied
to an instance whose persisted status is `Downloaded` it writes `Started`
(and then `Finished`), moving the status backwards in the lifecycle
order — against the claim that no instance operation ever does so. -/
theorem c7_run_apply_moves_backwards :
    runApplyOp .downloaded = some [.started, .finished] ∧
      ¬ MonotonicFrom .downloaded [.started, .finished] :=
  ⟨rfl, by simp [MonotonicFrom, List.chain_cons, Status.rank]⟩

/-- C7, amended: `prepare` requires the persisted status to be `Created`
and sets it to `Prepared`; `download` requires `Finished` and sets it to
`Downloaded`; the guarded instance operations (`prepare`, `download`,
`capture`) never move the status backwards, while the unguarded
`RunInstance.apply` moves it only forwards exactly when the prior status is
at most `Started` (as in the pipeline, where it receives `Prepared`
instances). -/
theorem c7_status_transitions (s : Status) (ws : List Status) :
    (prepareOp s = some ws → s = .created ∧ ws = [.prepared] ∧ MonotonicFrom s ws) ∧
    (downloadOp s = some ws → s = .finished ∧ ws = [.downloaded] ∧ MonotonicFrom s ws) ∧
    (captureOp s = some ws → s = .downloaded ∧ ws = [] ∧ MonotonicFrom s ws) ∧
    (runApplyOp s = some ws → (MonotonicFrom s ws ↔ s.rank ≤ Status.started.rank)) := by
  refine ⟨fun h => ?_, fun h => ?_, fun h => ?_, ?_⟩
  · cases s
    case created =>
      have hws : [Status.prepared] = ws := by injection h
      subst hws
      exact ⟨rfl, rfl, by simp [MonotonicFrom, List.chain_cons, Status.rank]⟩
    all_goals exact Option.noConfusion h
  · cases s
    case finished =>
      have hws : [Status.downloaded] = ws := by injection h
      subst hws
      exact ⟨rfl, rfl, by simp [MonotonicFrom, List.chain_cons, Status.rank]⟩
    all_goals exact Option.noConfusion h
  · cases s
    case downloaded =>
      have hws : ([] : List Status) = ws := by injection h
      subst hws
      exact ⟨rfl, rfl, by simp [MonotonicFrom]⟩
    all_goals exact Option.noConfusion h
  · intro h
    have hws : [Status.started, Status.finished] = ws := by injection h
    subst hws
    cases s <;> simp [MonotonicFrom, List.chain_cons, Status.rank]

/-- C7 witness: the `prepare` clause at a concrete `Created` instance. -/
theorem c7_status_transitions_witness : MonotonicFrom .created [.prepared] :=
  ((c7_status_transitions .created [.prepared]).1 rfl).2.2

/-- The final exit code returned by the retry loop is the code of the
final invocation. -/
theorem executeAttempts_final_code (retry : Bool) (codes : ℕ → ℤ) :
    ∀ fuel i n c, executeAttempts retry codes fuel i = some (n, c) →
      c = codes (n - 1) ∧ i + 1 ≤ n := by
  intro fuel
  induction fuel with
  | zero => intro i n c h; simp [executeAttempts] at h
  | succ fuel ih =>
    intro i n c h
    simp only [executeAttempts] at h
    by_cases hc : retry = true ∧ codes i ≠ 0
    · rw [if_pos hc] at h
      obtain ⟨h1, h2⟩ := ih (i + 1) n c h
      exact ⟨h1, by omega⟩
    · rw [if_neg hc] at h
      obtain ⟨rfl, rfl⟩ : n = i + 1 ∧ c = codes i := by
        cases h; exact ⟨rfl, rfl⟩
      simp

/-- C6: `Command.execute` returns `True` exactly when the final exit code
is `0` or `allow_failure` is set. -/
theorem c6_execute_result (retry allowFailure : Bool) (codes : ℕ → ℤ) (fuel n : ℕ)
    (r : Bool) (h : commandExecute retry allowFailure codes fuel = some (n, r)) :
    r = true ↔ (codes (n - 1) = 0 ∨ allowFailure = true) := by
  unfold commandExecute at h
  cases heq : executeAttempts retry codes fuel 0 with
  | none => rw [heq] at h; simp at h
  | some nc =>
    rw [heq] at h
    obtain ⟨n0, c⟩ := nc
    obtain ⟨hcode, -⟩ := executeAttempts_final_code retry codes fuel 0 n0 c heq
    simp only [Option.map_some', Option.some.injEq, Prod.mk.injEq] at h
    obtain ⟨rfl, rfl⟩ := h
    by_cases hc : c = 0
    · subst hc; simp [← hcode]
    · rw [if_pos hc, ← hcode]
      simp [hc]

/-- C6 witness: a process that exits `0` on the first try. -/
theorem c6_execute_result_witness :
    (true = true ↔ ((fun _ => (0 : ℤ)) (1 - 1) = 0 ∨ false = true)) :=
  c6_execute_result false false (fun _ => 0) 1 1 true rfl

/-- With `retry_on_fail`, the loop keeps retrying while every invocation
exits nonzero. -/
theorem executeAttempts_all_fail (codes : ℕ → ℤ) (h : ∀ n, codes n ≠ 0) :
    ∀ fuel i, executeAttempts true codes fuel i = none := by
  intro fuel
  induction fuel with
  | zero => intro i; rfl
  | succ fuel ih =>
    intro i
    simp only [executeAttempts]
    rw [if_pos ⟨trivial, h i⟩]
    exact ih (i + 1)

/-- With `retry_on_fail`, the loop stops at the first invocation that
exits `0`. -/
theorem executeAttempts_first_zero (codes : ℕ → ℤ) :
    ∀ m i fuel, (∀ k, k < m → codes (i + k) ≠ 0) → codes (i + m) = 0 → m < fuel →
      executeAttempts true codes fuel i = some (i + m + 1, 0) := by
  intro m
  induction m with
  | zero =>
    intro i fuel _ h0 hfuel
    obtain ⟨fuel, rfl⟩ : ∃ f, fuel = f + 1 := ⟨fuel - 1, by omega⟩
    have hz : codes i = 0 := by simpa using h0
    simp only [executeAttempts]
    rw [if_neg (fun hc => hc.2 hz)]
    simp [hz]
  | succ m ih =>
    intro i fuel hk h0 hfuel
    obtain ⟨fuel, rfl⟩ : ∃ f, fuel = f + 1 := ⟨fuel - 1, by omega⟩
    simp only [executeAttempts]
    rw [if_pos ⟨trivial, by simpa using hk 0 (by omega)⟩]
    have := ih (i + 1) fuel (fun k hklt => by
      have := hk (k + 1) (by omega)
      simpa [Nat.add_assoc, Nat.add_comm 1 k] using this)
      (by simpa [Nat.add_assoc, Nat.add_comm 1 m] using h0) (by omega)
    simpa [Nat.add_assoc, Nat.add_comm 1 m] using this

/-- C10: the retry loop of `Command.execute` is unbounded.  Without
`retry_on_fail` exactly one invocation is performed; with it, the loop
never returns when every invocation exits nonzero, and returns (with
result `True`) right after the first invocation that exits `0`. -/
theorem c10_retry_termination (codes : ℕ → ℤ) (allowFailure : Bool) :
    (∀ fuel, 1 ≤ fuel →
       ∃ r, commandExecute false allowFailure codes fuel = some (1, r)) ∧
    ((∀ n, codes n ≠ 0) → ∀ fuel, commandExecute true allowFailure codes fuel = none) ∧
    (∀ N, codes N = 0 → (∀ k, k < N → codes k ≠ 0) → ∀ fuel, N < fuel →
       commandExecute true allowFailure codes fuel = some (N + 1, true)) := by
  refine ⟨?_, ?_, ?_⟩
  · intro fuel hfuel
    obtain ⟨fuel, rfl⟩ : ∃ f, fuel = f + 1 := ⟨fuel - 1, by omega⟩
    refine ⟨if codes 0 ≠ 0 then allowFailure else true, ?_⟩
    simp [commandExecute, executeAttempts]
  · intro h fuel
    simp [commandExecute, executeAttempts_all_fail codes h fuel 0]
  · intro N h0 hk fuel hfuel
    have := executeAttempts_first_zero codes N 0 fuel (by simpa using hk) (by simpa using h0) hfuel
    simp [commandExecute, this]

/-- C10 witness: a process that succeeds immediately under
`retry_on_fail` terminates the loop after one invocation. -/
theorem c10_retry_termination_witness :
    commandExecute true false (fun _ => (0 : ℤ)) 1 = some (1, true) :=
  (c10_retry_termination (fun _ => 0) false).2.2 0 rfl (fun k hk => absurd hk (by omega))
    1 (by omega)

/-- C9: `GradedParameter.__init__` divides by `1 - grading ** (num - 1)`
with no guard: for any count `num ≥ 1`, construction raises
`ZeroDivisionError` exactly when `grading ^ (num - 1) = 1` — in particular
when `num = 1` or `grading = 1` — and succeeds otherwise. -/
theorem c9_graded_division_guard (lo hi : ℚ) (num : ℤ) (grading : ℚ)
    (h : 1 ≤ num) :
    (gradedValues lo hi num grading = none ↔ grading ^ (num - 1).toNat = 1) ∧
    ((num = 1 ∨ grading = 1) → gradedValues lo hi num grading = none) ∧
    (grading ^ (num - 1).toNat ≠ 1 → ∃ vs, gradedValues lo hi num grading = some vs) := by
  have hz : grading ^ (num - 1) = grading ^ (num - 1).toNat := by
    rw [← zpow_natCast]
    congr 1
    omega
  have hpy : pyPow grading (num - 1) = some (grading ^ (num - 1).toNat) := by
    rw [pyPow, if_neg (by rintro ⟨-, hlt⟩; omega), hz]
  have hgv : gradedValues lo hi num grading =
      if 1 - grading ^ (num - 1).toNat = 0 then none
      else some (lo :: gradedTail grading lo
        ((hi - lo) * (1 - grading) / (1 - grading ^ (num - 1).toNat)) (num - 1).toNat) := by
    unfold gradedValues
    rw [hpy]
    rfl
  have hsub : 1 - grading ^ (num - 1).toNat = 0 ↔ grading ^ (num - 1).toNat = 1 := by
    rw [sub_eq_zero, eq_comm]
  have main : (gradedValues lo hi num grading = none ↔ grading ^ (num - 1).toNat = 1) ∧
      (grading ^ (num - 1).toNat ≠ 1 → ∃ vs, gradedValues lo hi num grading = some vs) := by
    rw [hgv]
    by_cases h1 : 1 - grading ^ (num - 1).toNat = 0
    · rw [if_pos h1]
      exact ⟨by simpa using hsub.mp h1, fun hne => absurd (hsub.mp h1) hne⟩
    · rw [if_neg h1]
      exact ⟨by simpa using fun hc => h1 (hsub.mpr hc), fun _ => ⟨_, rfl⟩⟩
  refine ⟨main.1, ?_, main.2⟩
  rintro (rfl | rfl)
  · exact main.1.mpr (by norm_num)
  · exact main.1.mpr (one_pow _)

/-- C9 witness: `num = 1` raises. -/
theorem c9_graded_division_guard_witness : gradedValues 0 1 1 2 = none :=
  (c9_graded_division_guard 0 1 1 2 (by norm_num)).2.1 (Or.inl rfl)

/-- Folding option-bind over the remaining stages distributes over the
current optional item. -/
theorem foldl_bind_composeStages {α : Type} (rest : List (α → Option α)) :
    ∀ o : Option α,
      rest.foldl (fun acc f => acc.bind f) o = o.bind fun x => composeStages rest x := by
  induction rest with
  | nil => intro o; cases o <;> rfl
  | cons f rest ih =>
    intro o
    show rest.foldl (fun acc g => acc.bind g) (o.bind f) = _
    rw [ih (o.bind f)]
    cases o with
    | none => rfl
    | some a =>
      show (f a).bind _ = composeStages (f :: rest) a
      show (f a).bind _ = rest.foldl (fun acc g => acc.bind g) ((some a).bind f)
      rw [ih ((some a).bind f)]
      rfl

/-- The items that complete the whole pipeline are exactly the inputs on
which every stage succeeds, in input order. -/
theorem pipelineOutputs_eq_filterMap {α : Type} (stages : List (α → Option α)) :
    ∀ inputs : List α,
      pipelineOutputs stages inputs = inputs.filterMap (composeStages stages) := by
  induction stages with
  | nil =>
    intro inputs
    show inputs = inputs.filterMap fun x => some x
    simp
  | cons f rest ih =>
    intro inputs
    show pipelineOutputs rest (stageWork f inputs) = _
    rw [ih (stageWork f inputs), stageWork, List.filterMap_filterMap]
    congr 1
    funext x
    show (f x).bind (composeStages rest) = composeStages (f :: rest) x
    show (f x).bind (composeStages rest) = rest.foldl (fun acc g => acc.bind g) ((some x).bind f)
    rw [foldl_bind_composeStages rest ((some x).bind f)]
    rfl

/-- `filterMap` preserves the length exactly when the function succeeds on
every element. -/
theorem filterMap_length_eq_iff {α β : Type} (f : α → Option β) (l : List α) :
    (l.filterMap f).length = l.length ↔ ∀ x ∈ l, (f x).isSome := by
  induction l with
  | nil => simp
  | cons x l ih =>
    cases hf : f x with
    | none =>
      simp only [List.filterMap_cons, hf]
      constructor
      · intro h
        exfalso
        have := List.length_filterMap_le f l
        simp only [List.length_cons] at h
        omega
      · intro h
        have := h x (by simp)
        simp [hf] at this
    | some b =>
      simp only [List.filterMap_cons, hf, List.length_cons, List.forall_mem_cons,
        Option.isSome_some, true_and, ← ih]
      omega

/-- C3: the pipeline (over a nonempty stage list, since `pipes[-1]` raises
on an empty one) returns `True` exactly when every input completes every
stage — i.e. the last stage's `npiped` equals the input count — and a
raising `apply` drops only its own item: the stage's output on
`pre ++ [bad] ++ post` is its output on `pre` followed by its output on
`post`, so the remaining items are still processed and the pipeline is not
aborted. -/
theorem c3_pipeline_success_and_isolation {α : Type} (stages : List (α → Option α))
    (inputs : List α) (b : Bool)
    (hrun : pipelineRun stages inputs = some b) :
    (b = true ↔ ∀ x ∈ inputs, (composeStages stages x).isSome) ∧
    (∀ (f : α → Option α) (pre post : List α) (bad : α), f bad = none →
       stageWork f (pre ++ bad :: post) = stageWork f pre ++ stageWork f post) := by
  constructor
  · cases stages with
    | nil => exact Option.noConfusion hrun
    | cons s rest =>
      have hb : b = ((pipelineOutputs (s :: rest) inputs).length == inputs.length) := by
        have : some ((pipelineOutputs (s :: rest) inputs).length == inputs.length) = some b :=
          hrun
        exact (Option.some.inj this).symm
      subst hb
      rw [beq_iff_eq, pipelineOutputs_eq_filterMap]
      exact filterMap_length_eq_iff _ _
  · intro f pre post bad hbad
    simp [stageWork, List.filterMap_append, List.filterMap_cons, hbad]

/-- C3 witness: a two-item run through one always-succeeding stage. -/
theorem c3_pipeline_success_and_isolation_witness :
    (composeStages [fun n : ℕ => some (n + 1)] 0).isSome = true :=
  (c3_pipeline_success_and_isolation [fun n : ℕ => some (n + 1)] [0, 1] true rfl).1.mp rfl
    0 (by simp)

/-- The head factor of the length product. -/
theorem prodLens_cons {α : Type} (l : List α) (ls : List (List α)) :
    prodLens (l :: ls) = l.length * prodLens ls := by
  show (List.length l :: ls.map List.length).prod = _
  rw [List.prod_cons]
  rfl

/-- The product list has as many tuples as the product of the axis
lengths. -/
theorem listProd_length {α : Type} (ls : List (List α)) :
    (listProd ls).length = prodLens ls := by
  induction ls with
  | nil => rfl
  | cons l ls ih =>
    show (l.flatMap fun x => (listProd ls).map (x :: ·)).length = _
    rw [List.length_flatMap]
    have hmap : (l.map (List.length ∘ fun x => (listProd ls).map (x :: ·))) =
        l.map fun _ => prodLens ls := by
      simp [Function.comp_def, ih]
    rw [hmap, List.map_const', List.sum_replicate, smul_eq_mul, prodLens_cons]

/-- Indexing into a `flatMap` whose blocks all have length `P`. -/
theorem flatMap_const_length_getD {α β : Type} (l : List α) (f : α → List β) (P : ℕ)
    (hP : ∀ x ∈ l, (f x).length = P) :
    ∀ i, i < l.length * P → ∀ (d : β) (d0 : α),
      (l.flatMap f).getD i d = (f (l.getD (i / P) d0)).getD (i % P) d := by
  induction l with
  | nil => intro i hi d d0; simp at hi
  | cons x l ih =>
    intro i hi d d0
    have hfx : (f x).length = P := hP x (by simp)
    have hmul : (x :: l).length * P = l.length * P + P := by
      rw [List.length_cons, Nat.succ_mul]
    have hPpos : 0 < P := by
      by_contra hc
      have hz : P = 0 := by omega
      rw [hz, Nat.mul_zero] at hi
      omega
    show ((f x) ++ l.flatMap f).getD i d = _
    by_cases hiP : i < P
    · have hg1 : i < (f x).length := by rw [hfx]; exact hiP
      rw [List.getD_append _ _ _ _ hg1]
      rw [Nat.div_eq_of_lt hiP, Nat.mod_eq_of_lt hiP]
      rfl
    · obtain ⟨j, rfl⟩ : ∃ j, i = j + P := ⟨i - P, by omega⟩
      have hg2 : (f x).length ≤ j + P := by rw [hfx]; omega
      rw [List.getD_append_right _ _ _ _ hg2, hfx]
      have hj : j + P - P = j := by omega
      rw [hj]
      have hjlt : j < l.length * P := by omega
      rw [ih (fun y hy => hP y (by simp [hy])) j hjlt d d0]
      rw [Nat.add_div_right j hPpos, Nat.add_mod_right j P]
      rfl

/-- Indexing into the product list decodes the index in mixed radix with
the last axis fastest. -/
theorem listProd_getD {α : Type} [Inhabited α] (ls : List (List α)) :
    ∀ i, i < prodLens ls → (listProd ls).getD i [] = decodeIx ls i := by
  induction ls with
  | nil =>
    intro i hi
    have : i = 0 := by simpa [prodLens] using hi
    subst this
    rfl
  | cons l ls ih =>
    intro i hi
    have hlen : ∀ x ∈ l, ((listProd ls).map (x :: ·)).length = prodLens ls := by
      intro x _
      simp [listProd_length]
    have hi' : i < l.length * prodLens ls := by rw [prodLens_cons] at hi; exact hi
    have hPpos : 0 < prodLens ls := by
      by_contra hc
      have hz : prodLens ls = 0 := by omega
      rw [hz, Nat.mul_zero] at hi'
      omega
    have hdiv : i / prodLens ls < l.length := Nat.div_lt_of_lt_mul (by
      rw [Nat.mul_comm]
      exact hi')
    show (l.flatMap fun x => (listProd ls).map (x :: ·)).getD i [] = _
    rw [flatMap_const_length_getD l _ (prodLens ls) hlen i hi' [] default]
    have hmod : i % prodLens ls < prodLens ls := Nat.mod_lt _ hPpos
    have hmap : ((listProd ls).map ((l.getD (i / prodLens ls) default) :: ·)).getD
        (i % prodLens ls) [] =
        (l.getD (i / prodLens ls) default) :: (listProd ls).getD (i % prodLens ls) [] := by
      have hlt : i % prodLens ls < (listProd ls).length := by
        rw [listProd_length]; exact hmod
      rw [List.getD_eq_getElem _ _ (by simpa using hlt), List.getD_eq_getElem _ _ hlt,
        List.getElem_map]
    rw [hmap, ih (i % prodLens ls) hmod]
    show _ = l.getD (i / prodLens ls % l.length) default :: decodeIx ls (i % prodLens ls)
    rw [Nat.mod_eq_of_lt hdiv]

/-- C5: `subspace` (when every listed name is present) yields exactly one
mapping per element of the Cartesian product of the listed parameters'
values — `∏ len` in total — ordered with the listed names major-to-minor
in the given order, the last listed parameter varying fastest, each
parameter index-ascending; the tuple at index `i` pairs the names with the
mixed-radix decoding of `i`.  With no listed parameters exactly one empty
mapping is yielded. -/
theorem c5_subspace_product {α : Type} [Inhabited α] (space : ParameterSpace α)
    (names : List String) (params : List (List α)) (result : List (List (String × α)))
    (hparams : (names.mapM fun n => space.lookup n) = some params)
    (hres : subspace space names = some result) :
    result.length = prodLens params ∧
    (∀ i, i < prodLens params → result.getD i [] = names.zip (decodeIx params i)) ∧
    (names = [] → result = [[]]) := by
  have hres2 : result = dict_product names params := by
    unfold subspace at hres
    rw [hparams] at hres
    exact (Option.some.inj hres).symm
  subst hres2
  refine ⟨?_, ?_, ?_⟩
  · show ((listProd params).map fun vs => names.zip vs).length = _
    rw [List.length_map, listProd_length]
  · intro i hi
    have hlt : i < (listProd params).length := by rw [listProd_length]; exact hi
    show ((listProd params).map fun vs => names.zip vs).getD i [] = _
    rw [List.getD_eq_getElem _ _ (by simpa using hlt), List.getElem_map,
      ← List.getD_eq_getElem (listProd params) [] hlt, listProd_getD params i hi]
  · intro hnil
    subst hnil
    have h0 : (some ([] : List (List α))) = some params := hparams
    have : params = [] := (Option.some.inj h0).symm
    subst this
    rfl

/-- C5 witness: a two-by-one parameter space enumerated in order. -/
theorem c5_subspace_product_witness :
    ([[("a", 1), ("b", 10)], [("a", 2), ("b", 10)]] :
        List (List (String × ℕ))).length = prodLens [[1, 2], [10]] :=
  (c5_subspace_product [("a", [1, 2]), ("b", [10])] ["a", "b"] [[1, 2], [10]]
    [[("a", 1), ("b", 10)], [("a", 2), ("b", 10)]] rfl rfl).1

/-- The loop appends exactly `n` values. -/
theorem gradedTail_length (g : ℚ) : ∀ (lo s : ℚ) (n : ℕ),
    (gradedTail g lo s n).length = n := by
  intro lo s n
  induction n generalizing lo s with
  | zero => rfl
  | succ n ih =>
    show (gradedTail g (lo + s) (s * g) n).length + 1 = n + 1
    rw [ih]

/-- Geometric partial sums, one step at a time. -/
theorem sumPow_succ (g : ℚ) (j : ℕ) :
    ∑ k ∈ Finset.range (j + 1), g ^ k = 1 + g * ∑ k ∈ Finset.range j, g ^ k := by
  rw [geom_sum_succ]
  ring

/-- Closed form of the graded value list: the `i`-th value is
`lo + step · (1 + g + … + g^(i-1))`. -/
theorem graded_getD (g : ℚ) : ∀ (m : ℕ) (lo s : ℚ) (i : ℕ), i ≤ m →
    (lo :: gradedTail g lo s m).getD i 0 = lo + s * ∑ k ∈ Finset.range i, g ^ k := by
  intro m
  induction m with
  | zero =>
    intro lo s i hi
    have : i = 0 := by omega
    subst this
    simp
  | succ m ih =>
    intro lo s i hi
    cases i with
    | zero => simp
    | succ j =>
      show ((lo + s) :: gradedTail g (lo + s) (s * g) m).getD j 0 = _
      rw [ih (lo + s) (s * g) j (by omega), sumPow_succ]
      ring

/-- C4, counterexample: for the graded parameter over `[0, 1]` with
`num = 3` and grading ratio `-2 ≠ 1`, the produced values are
`[0, -1, 1]`, which are not strictly monotonic although `0 ≠ 1`. -/
theorem c4_negative_grading_not_monotonic :
    gradedValues 0 1 3 (-2) = some [0, -1, 1] ∧ (0 : ℚ) ≠ 1 ∧
      ¬ (List.Chain' (· < ·) [(0 : ℚ), -1, 1] ∨
         List.Chain' (· > ·) [(0 : ℚ), -1, 1]) := by
  refine ⟨by norm_num [gradedValues, pyPow, gradedTail], by norm_num, ?_⟩
  rintro (h | h) <;> simp [List.chain'_cons] at h <;> norm_num at h

/-- C4, amended: for a graded parameter over `[a, b]` with `num ≥ 2` and a
*positive* grading ratio `r ≠ 1`, the produced sequence has length `num`,
starts at `a`, ends at `b`, and its consecutive differences form the
geometric progression with first term `(b-a)(1-r)/(1-r^(num-1))` and ratio
`r`; the values are strictly monotonic when `a ≠ b`.  (For negative
ratios the difference formula still holds but monotonicity fails, as the
counterexample shows.) -/
theorem c4_graded_sequence {lo hi : ℚ} {num : ℤ} {grading : ℚ}
    (hn : 2 ≤ num) (hpos : 0 < grading) (hne : grading ≠ 1) :
    ∃ vs, gradedValues lo hi num grading = some vs ∧
      vs.length = num.toNat ∧
      vs.head? = some lo ∧
      vs.getLast? = some hi ∧
      (∀ i : ℕ, i + 1 < vs.length →
        vs.getD (i + 1) 0 - vs.getD i 0 =
          (hi - lo) * (1 - grading) / (1 - grading ^ (num - 1).toNat) * grading ^ i) ∧
      (lo < hi → List.Chain' (· < ·) vs) ∧
      (hi < lo → List.Chain' (· > ·) vs) := by
  have hm1 : 1 ≤ (num - 1).toNat := by omega
  have hgm : grading ^ (num - 1).toNat ≠ 1 := by
    rcases lt_trichotomy grading 1 with hlt | heq | hgt
    · exact ne_of_lt (pow_lt_one₀ (le_of_lt hpos) hlt (by omega))
    · exact absurd heq hne
    · exact ne_of_gt (one_lt_pow₀ hgt (by omega))
  have hd : 1 - grading ^ (num - 1).toNat ≠ 0 :=
    sub_ne_zero.mpr fun h => hgm h.symm
  have hz : grading ^ (num - 1) = grading ^ (num - 1).toNat := by
    rw [← zpow_natCast]
    congr 1
    omega
  have hpy : pyPow grading (num - 1) = some (grading ^ (num - 1).toNat) := by
    rw [pyPow, if_neg (by rintro ⟨-, hlt⟩; omega), hz]
  set m := (num - 1).toNat with hmdef
  set s := (hi - lo) * (1 - grading) / (1 - grading ^ m) with hsdef
  have hgv : gradedValues lo hi num grading =
      some (lo :: gradedTail grading lo s m) := by
    unfold gradedValues
    rw [hpy]
    show (if 1 - grading ^ m = 0 then none else _) = _
    rw [if_neg hd]
  set vs := lo :: gradedTail grading lo s m with hvs
  have hlen : vs.length = m + 1 := by
    show (gradedTail grading lo s m).length + 1 = m + 1
    rw [gradedTail_length]
  have hgetD : ∀ i, i ≤ m → vs.getD i 0 = lo + s * ∑ k ∈ Finset.range i, grading ^ k :=
    fun i hi2 => graded_getD grading m lo s i hi2
  have hsum : (1 - grading) * ∑ k ∈ Finset.range m, grading ^ k = 1 - grading ^ m := by
    have hg := geom_sum_mul grading m
    linear_combination (-1 : ℚ) * hg
  have hlast : vs.getD m 0 = hi := by
    rw [hgetD m le_rfl, hsdef]
    rw [div_mul_eq_mul_div, mul_assoc, hsum]
    field_simp
  have hdiff : ∀ i : ℕ, i + 1 < vs.length →
      vs.getD (i + 1) 0 - vs.getD i 0 = s * grading ^ i := by
    intro i hi2
    rw [hlen] at hi2
    rw [hgetD (i + 1) (by omega), hgetD i (by omega), Finset.sum_range_succ]
    ring
  have hspos : 0 < (1 - grading) / (1 - grading ^ m) := by
    rcases lt_trichotomy grading 1 with hlt | heq | hgt
    · have h1 : (0 : ℚ) < 1 - grading := by linarith
      have h2 : grading ^ m < 1 := pow_lt_one₀ (le_of_lt hpos) hlt (by omega)
      exact div_pos h1 (by linarith)
    · exact absurd heq hne
    · have h1 : 1 - grading < 0 := by linarith
      have h2 : 1 < grading ^ m := one_lt_pow₀ hgt (by omega)
      have : (1 - grading) / (1 - grading ^ m) = (grading - 1) / (grading ^ m - 1) := by
        rw [← neg_sub grading 1, ← neg_sub (grading ^ m) 1, neg_div_neg_eq]
      rw [this]
      exact div_pos (by linarith) (by linarith)
  have hchain : ∀ R : ℚ → ℚ → Prop,
      (∀ i : ℕ, i + 1 < vs.length → R (vs.getD i 0) (vs.getD (i + 1) 0)) →
      List.Chain' R vs := by
    intro R hR
    rw [List.chain'_iff_get]
    intro i hi2
    have hb1 : i < vs.length := by omega
    have hb2 : i + 1 < vs.length := by omega
    have e1 : vs.get ⟨i, hb1⟩ = vs.getD i 0 := (List.getD_eq_getElem vs 0 hb1).symm
    have e2 : vs.get ⟨i + 1, hb2⟩ = vs.getD (i + 1) 0 := (List.getD_eq_getElem vs 0 hb2).symm
    rw [e1, e2]
    exact hR i hb2
  refine ⟨vs, hgv, ?_, rfl, ?_, hdiff, ?_, ?_⟩
  · rw [hlen]; omega
  · rw [List.getLast?_eq_getElem? vs, hlen]
    show vs[m + 1 - 1]? = some hi
    have hb : m + 1 - 1 < vs.length := by omega
    rw [List.getElem?_eq_getElem hb]
    have : vs[m + 1 - 1] = vs.getD (m + 1 - 1) 0 := (List.getD_eq_getElem vs 0 hb).symm
    rw [this]
    simpa using hlast
  · intro hlohi
    have hsplit : s = (hi - lo) * ((1 - grading) / (1 - grading ^ m)) := by
      rw [hsdef, mul_div_assoc]
    refine hchain _ fun i hi2 => ?_
    have h0 : 0 < s * grading ^ i := by
      apply mul_pos
      · rw [hsplit]
        exact mul_pos (by linarith) hspos
      · exact pow_pos hpos i
    have := hdiff i hi2
    linarith
  · intro hhilo
    have hsplit : s = (hi - lo) * ((1 - grading) / (1 - grading ^ m)) := by
      rw [hsdef, mul_div_assoc]
    refine hchain _ fun i hi2 => ?_
    have h0 : s * grading ^ i < 0 := by
      apply mul_neg_of_neg_of_pos
      · rw [hsplit]
        exact mul_neg_of_neg_of_pos (by linarith) hspos
      · exact pow_pos hpos i
    have := hdiff i hi2
    linarith

/-- C4 witness: the amended statement at the graded parameter over
`[0, 1]` with three values and ratio `1/2`. -/
theorem c4_graded_sequence_witness :
    ∃ vs, gradedValues 0 1 3 (1 / 2) = some vs ∧ vs.length = (3 : ℤ).toNat := by
  obtain ⟨vs, h1, h2, -⟩ :=
    @c4_graded_sequence 0 1 3 (1 / 2) (by norm_num) (by norm_num) (by norm_num)
  exact ⟨vs, h1, h2⟩

/-- The evaluables loop writes only evaluable names into the context. -/
theorem evalLoop_frame {α : Type} (k : String) :
    ∀ (evs : List (String × EvalCode α)), (∀ e ∈ evs, e.1 ≠ k) →
      ∀ (names ctx : String → Option α) (allowed : AllowMissing)
        (names2 ctx2 : String → Option α),
        evalLoop evs names ctx allowed = .ok (names2, ctx2) → ctx2 k = ctx k := by
  intro evs
  induction evs with
  | nil =>
    intro _ names ctx allowed names2 ctx2 h
    simp only [evalLoop, Except.ok.injEq, Prod.mk.injEq] at h
    rw [← h.2]
  | cons e rest ih =>
    intro hne names ctx allowed names2 ctx2 h
    obtain ⟨name, code⟩ := e
    have hnek : name ≠ k := hne (name, code) (by simp)
    have hrest : ∀ x ∈ rest, x.1 ≠ k := fun x hx => hne x (by simp [hx])
    simp only [evalLoop] at h
    cases hres : evalCodeRun code names with
    | ok v =>
      rw [hres] at h
      have hmain := ih hrest _ _ _ _ _ h
      rw [hmain]
      show (if k = name then some v else ctx k) = ctx k
      rw [if_neg fun hc => hnek hc.symm]
    | error missing =>
      rw [hres] at h
      dsimp only at h
      cases allowed with
      | all => exact ih hrest _ _ _ _ _ h
      | strict => exact Except.noConfusion h
      | ofSet s0 =>
        dsimp only at h
        by_cases hmem : missing ∈ s0
        · rw [if_pos hmem] at h
          exact ih hrest _ _ _ _ _ h
        · rw [if_neg hmem] at h
          exact Except.noConfusion h

/-- The constants pass never overwrites an existing binding. -/
theorem addConstantsTo_preserve {α : Type} (k : String) (v : α) :
    ∀ (cs : List (String × α)) (ctx : String → Option α),
      ctx k = some v → addConstantsTo cs ctx k = some v := by
  intro cs
  induction cs with
  | nil => intro ctx h; exact h
  | cons kv rest ih =>
    intro ctx h
    show addConstantsTo rest
      (if (ctx kv.1).isNone then bindName ctx kv.1 kv.2 else ctx) k = some v
    cases hN : (ctx kv.1).isNone with
    | false =>
      rw [if_neg (by simp [hN])]
      exact ih ctx h
    | true =>
      rw [if_pos (by simp [hN])]
      by_cases hk : kv.1 = k
      · subst hk
        rw [h] at hN
        simp at hN
      · refine ih _ ?_
        show (if k = kv.1 then some kv.2 else ctx k) = some v
        rw [if_neg fun hc => hk hc.symm]
        exact h

/-- The constants pass touches only constant names. -/
theorem addConstantsTo_frame {α : Type} (k : String) :
    ∀ (cs : List (String × α)), (∀ c ∈ cs, c.1 ≠ k) →
      ∀ ctx : String → Option α, addConstantsTo cs ctx k = ctx k := by
  intro cs
  induction cs with
  | nil => intro _ ctx; rfl
  | cons kv rest ih =>
    intro hne ctx
    have hk : kv.1 ≠ k := hne kv (by simp)
    have hrest : ∀ c ∈ rest, c.1 ≠ k := fun c hc => hne c (by simp [hc])
    show addConstantsTo rest
      (if (ctx kv.1).isNone then bindName ctx kv.1 kv.2 else ctx) k = ctx k
    cases hN : (ctx kv.1).isNone with
    | false =>
      rw [if_neg (by simp [hN])]
      exact ih hrest ctx
    | true =>
      rw [if_pos (by simp [hN])]
      rw [ih hrest _]
      show (if k = kv.1 then some kv.2 else ctx k) = ctx k
      rw [if_neg fun hc => hk hc.symm]

/-- A constant fills a name that is still unbound after the evaluables. -/
theorem addConstantsTo_adds {α : Type} (k : String) (v : α) :
    ∀ (cs : List (String × α)) (ctx : String → Option α),
      ctx k = none → cs.lookup k = some v → addConstantsTo cs ctx k = some v := by
  intro cs
  induction cs with
  | nil => intro ctx _ hl; exact Option.noConfusion hl
  | cons kv rest ih =>
    intro ctx hn hl
    obtain ⟨k0, v0⟩ := kv
    show addConstantsTo rest
      (if (ctx k0).isNone then bindName ctx k0 v0 else ctx) k = some v
    by_cases hk : k = k0
    · subst hk
      have hv : v0 = v := by
        have h2 := hl
        simp only [List.lookup, beq_self_eq_true] at h2
        exact Option.some.inj h2
      rw [if_pos (by simp [hn])]
      refine addConstantsTo_preserve k v rest _ ?_
      show (if k = k then some v0 else ctx k) = some v
      rw [if_pos rfl, hv]
    · have hl2 : rest.lookup k = some v := by
        have hbeq : (k == k0) = false := beq_eq_false_iff_ne.mpr hk
        have h2 := hl
        simp only [List.lookup, hbeq] at h2
        exact h2
      cases hN : (ctx k0).isNone with
      | false =>
        rw [if_neg (by simp [hN])]
        exact ih ctx hn hl2
      | true =>
        rw [if_pos (by simp [hN])]
        refine ih _ ?_ hl2
        show (if k = k0 then some v0 else ctx k) = none
        rw [if_neg hk]
        exact hn

/-- C8, counterexample: a constant name that is also an evaluable name.
The constant `a = 1` does not override the input binding `a = 5`, but the
evaluable `a` then writes `2` over it, so evaluation does not leave the
existing binding unchanged. -/
theorem c8_evaluable_overrides_bound_constant_name :
    ∃ ctx2 : String → Option ℤ,
      rawEvaluate ⟨[("a", 1)], [("a", EvalCode.literal 2)]⟩
          (fun x => if x = "a" then some 5 else none) .strict true = .ok ctx2 ∧
        (fun x => if x = "a" then some (5 : ℤ) else none) "a" = some 5 ∧
        ctx2 "a" = some 2 ∧ ctx2 "a" ≠ some 5 := by
  refine ⟨_, rfl, rfl, rfl, fun hc => ?_⟩
  have h2 : (some (2 : ℤ)) = some 5 := hc
  exact absurd (Option.some.inj h2) (by norm_num)

/-- C8, amended: for a name `k` bound by a constant but not by any
evaluable, `raw_evaluate` leaves an existing input binding for `k`
unchanged; if `k` is unbound after the evaluables have run, the constant's
value is added; and a binding named by no constant and no evaluable is
never modified.  (A name that is both a constant and an evaluable *is*
overwritten by the evaluable, as the counterexample shows.) -/
theorem c8_constants_nonoverriding {α : Type} (p : Provider α)
    (ctx : String → Option α) (allowed : AllowMissing)
    (ctx2 : String → Option α) (k : String)
    (hrun : rawEvaluate p ctx allowed true = .ok ctx2)
    (hev : ∀ e ∈ p.evaluables, e.1 ≠ k) :
    (∀ v, ctx k = some v → ctx2 k = some v) ∧
    (∀ c, ctx k = none → p.constants.lookup k = some c → ctx2 k = some c) ∧
    ((∀ c ∈ p.constants, c.1 ≠ k) → ctx2 k = ctx k) := by
  unfold rawEvaluate at hrun
  dsimp only at hrun
  cases hLoop : evalLoop p.evaluables
      (fun k2 => match ctx k2 with
        | some v => some v
        | none => p.constants.lookup k2) ctx allowed with
  | error e =>
    rw [hLoop] at hrun
    dsimp only at hrun
    exact Except.noConfusion hrun
  | ok nc =>
    rw [hLoop] at hrun
    dsimp only at hrun
    have hctx2 : ctx2 = addConstantsTo p.constants nc.2 := by
      have h2 := (Except.ok.inj hrun).symm
      exact h2
    have hframe : nc.2 k = ctx k :=
      evalLoop_frame k p.evaluables hev _ _ _ _ _ (by
        rw [hLoop])
    subst hctx2
    refine ⟨?_, ?_, ?_⟩
    · intro v hv
      exact addConstantsTo_preserve k v p.constants nc.2 (by rw [hframe, hv])
    · intro c hn hl
      exact addConstantsTo_adds k c p.constants nc.2 (by rw [hframe, hn]) hl
    · intro hcs
      rw [addConstantsTo_frame k p.constants hcs nc.2, hframe]

/-- C8 witness: an unbound constant is added after evaluation. -/
theorem c8_constants_nonoverriding_witness :
    (addConstantsTo [("b", (7 : ℤ))] (fun x => if x = "c" then some (1 : ℤ) else none))
      "b" = some 7 := by
  have h := c8_constants_nonoverriding ⟨[("b", (7 : ℤ))], []⟩
    (fun x => if x = "c" then some (1 : ℤ) else none) .strict _ "b" rfl (by simp)
  exact h.2.1 7 rfl rfl

/-- Decimal digits render as digit characters. -/
theorem digitChar_isDigit {d : ℕ} (h : d < 10) : (Nat.digitChar d).isDigit = true := by
  interval_cases d <;> decide

/-- Rendering then reading a decimal digit is the identity. -/
theorem digitChar_toNat {d : ℕ} (h : d < 10) : (Nat.digitChar d).toNat - 48 = d := by
  interval_cases d <;> decide

/-- Every character of `natChars` is a digit. -/
theorem natChars_isDigit {n : ℕ} : ∀ c ∈ natChars n, c.isDigit = true := by
  intro c hc
  obtain ⟨d, hd, rfl⟩ := List.mem_map.mp hc
  exact digitChar_isDigit (Nat.digits_lt_base (by norm_num) (List.mem_reverse.mp hd))

/-- Every character of `padNum` is a digit. -/
theorem padNum_isDigit {w n : ℕ} : ∀ c ∈ padNum w n, c.isDigit = true := by
  intro c hc
  rcases List.mem_append.mp hc with h | h
  · rw [List.eq_of_mem_replicate h]
    decide
  · exact natChars_isDigit c h

/-- A digit character is not one of the separator characters. -/
theorem isDigit_ne {c sep : Char} (h : c.isDigit = true) (hs : sep.isDigit = false) :
    c ≠ sep := by
  intro hc
  rw [hc, hs] at h
  exact Bool.noConfusion h

/-- `natChars` has at most `w` digits when `n < 10 ^ w`. -/
theorem natChars_length_le {n w : ℕ} (h : n < 10 ^ w) : (natChars n).length ≤ w := by
  rcases Nat.eq_zero_or_pos n with rfl | hn
  · simp [natChars]
  · have hlen : (Nat.digits 10 n).length = Nat.log 10 n + 1 :=
      Nat.digits_len 10 n (by norm_num) (by omega)
    have hlog : Nat.log 10 n < w := (Nat.lt_pow_iff_log_lt (by norm_num) (by omega)).mp h
    simp only [natChars, List.length_map, List.length_reverse, hlen]
    omega

/-- `padNum` pads to exactly width `w`. -/
theorem padNum_length {w n : ℕ} (h : n < 10 ^ w) : (padNum w n).length = w := by
  have := natChars_length_le h
  simp only [padNum, List.length_append, List.length_replicate]
  omega

/-- Leading zeros do not change the accumulated value. -/
theorem digitsVal_aux_zeros (k : ℕ) :
    List.foldl (fun a c => 10 * a + (c.toNat - 48)) 0 (List.replicate k (Char.ofNat 48)) = 0 := by
  induction k with
  | zero => rfl
  | succ k ih =>
    show List.foldl _ (10 * 0 + ((Char.ofNat 48).toNat - 48)) (List.replicate k (Char.ofNat 48)) = 0
    have hz : 10 * 0 + ((Char.ofNat 48).toNat - 48) = 0 := by decide
    rw [hz]
    exact ih

/-- Horner evaluation of the little-endian digit list. -/
theorem foldr_ofDigits (l : List ℕ) :
    l.foldr (fun d a => 10 * a + d) 0 = Nat.ofDigits 10 l := by
  induction l with
  | nil => rfl
  | cons d l ih =>
    show 10 * l.foldr (fun d a => 10 * a + d) 0 + d = Nat.ofDigits 10 (d :: l)
    rw [ih, Nat.ofDigits_cons]
    omega

/-- Reading back the rendered digits of `n` yields `n`. -/
theorem digitsVal_natChars (n : ℕ) :
    List.foldl (fun a c => 10 * a + (c.toNat - 48)) 0 (natChars n) = n := by
  unfold natChars
  rw [List.foldl_map, List.foldl_reverse]
  have hcong : (Nat.digits 10 n).foldr
      (fun x y => 10 * y + (x.digitChar.toNat - 48)) 0 =
      (Nat.digits 10 n).foldr (fun d a => 10 * a + d) 0 := by
    have : ∀ l : List ℕ, (∀ d ∈ l, d < 10) →
        l.foldr (fun x y => 10 * y + (x.digitChar.toNat - 48)) 0 =
          l.foldr (fun d a => 10 * a + d) 0 := by
      intro l
      induction l with
      | nil => intro _; rfl
      | cons d l ih =>
        intro hl
        show 10 * _ + (d.digitChar.toNat - 48) = 10 * _ + d
        rw [ih fun x hx => hl x (by simp [hx]), digitChar_toNat (hl d (by simp))]
    exact this _ fun d hd => Nat.digits_lt_base (by norm_num) hd
  rw [hcong, foldr_ofDigits, Nat.ofDigits_digits]

/-- Parsing the zero-padded rendering of `n` recovers `n`. -/
theorem digitsVal_padNum (w n : ℕ) : digitsVal (padNum w n) = n := by
  unfold digitsVal padNum
  rw [List.foldl_append, digitsVal_aux_zeros, digitsVal_natChars]

/-- `parseField` accepts the padded rendering whenever the value fits the
width. -/
theorem parseField_padNum {w n : ℕ} (h : n < 10 ^ w) (hw : 1 ≤ w) :
    parseField w (padNum w n) = some n := by
  have hlen : (padNum w n).length = w := padNum_length h
  unfold parseField
  rw [if_pos (le_of_eq hlen)]
  unfold parseDigits
  rw [if_pos ⟨by intro hc; rw [hc] at hlen; simp at hlen; omega,
    List.all_eq_true.mpr fun c hc => padNum_isDigit c hc⟩]
  rw [digitsVal_padNum]

/-- `splitOnChar` recovers a separator-free prefix. -/
theorem splitOnChar_recovers (c : Char) :
    ∀ (pre rest : List Char), (∀ x ∈ pre, x ≠ c) →
      splitOnChar c (pre ++ c :: rest) = some (pre, rest) := by
  intro pre
  induction pre with
  | nil =>
    intro rest _
    show (if c = c then some ([], rest) else _) = _
    rw [if_pos rfl]
  | cons x pre ih =>
    intro rest hne
    show (if x = c then some ([], pre ++ c :: rest)
      else (splitOnChar c (pre ++ c :: rest)).map fun p => (x :: p.1, p.2)) = _
    rw [if_neg (hne x (by simp)), ih rest fun y hy => hne y (by simp [hy])]
    rfl

/-- No month has more than 31 days. -/
theorem daysInMonth_le (y m : ℕ) : daysInMonth y m ≤ 31 := by
  unfold daysInMonth
  split
  · split <;> omega
  · split <;> omega

/-- `strptime` inverts `strftime` on every constructor-valid datetime:
parsing the fixed-format rendering recovers the datetime exactly. -/
theorem dtParse_dtFormat (d : DT) (hv : d.validB = true) :
    dtParse (dtFormat d) = some d := by
  have hv2 := hv
  unfold DT.validB at hv2
  simp only [Bool.and_eq_true, decide_eq_true_eq] at hv2
  obtain ⟨⟨⟨⟨⟨⟨⟨⟨⟨hy1, hy2⟩, hm1⟩, hm2⟩, hd1⟩, hd2⟩, hh⟩, hmin⟩, hs⟩, hmic⟩ := hv2
  have e4 : (10 : ℕ) ^ 4 = 10000 := by norm_num
  have e2 : (10 : ℕ) ^ 2 = 100 := by norm_num
  have e6 : (10 : ℕ) ^ 6 = 1000000 := by norm_num
  have hd31 := daysInMonth_le d.year d.month
  have hyb : d.year < 10 ^ 4 := by rw [e4]; omega
  have hmb : d.month < 10 ^ 2 := by rw [e2]; omega
  have hdb : d.day < 10 ^ 2 := by rw [e2]; omega
  have hhb : d.hour < 10 ^ 2 := by rw [e2]; omega
  have hminb : d.minute < 10 ^ 2 := by rw [e2]; omega
  have hsb : d.second < 10 ^ 2 := by rw [e2]; omega
  have hmicb : d.micro < 10 ^ 6 := by rw [e6]; omega
  have hnd : ∀ sep : Char, sep.isDigit = false → ∀ (w n : ℕ), ∀ x ∈ padNum w n, x ≠ sep :=
    fun sep hsep w n x hx => isDigit_ne (padNum_isDigit x hx) hsep
  unfold dtParse dtFormat
  rw [splitOnChar_recovers _ _ _ (hnd _ (by decide) 4 d.year), Option.some_bind,
    parseField_padNum hyb (by norm_num), Option.some_bind,
    splitOnChar_recovers _ _ _ (hnd _ (by decide) 2 d.month), Option.some_bind,
    parseField_padNum hmb (by norm_num), Option.some_bind,
    splitOnChar_recovers _ _ _ (hnd _ (by decide) 2 d.day), Option.some_bind,
    parseField_padNum hdb (by norm_num), Option.some_bind,
    splitOnChar_recovers _ _ _ (hnd _ (by decide) 2 d.hour), Option.some_bind,
    parseField_padNum hhb (by norm_num), Option.some_bind,
    splitOnChar_recovers _ _ _ (hnd _ (by decide) 2 d.minute), Option.some_bind,
    parseField_padNum hminb (by norm_num), Option.some_bind,
    splitOnChar_recovers _ _ _ (hnd _ (by decide) 2 d.second), Option.some_bind,
    parseField_padNum hsb (by norm_num), Option.some_bind,
    parseField_padNum hmicb (by norm_num), Option.some_bind]
  rw [padNum_length hmicb]
  simp only [Nat.sub_self, pow_zero, Nat.mul_one]
  rw [if_pos hv]

/-- Inversion for a successful optional bind. -/
theorem bind_some_elim {α β : Type} {o : Option α} {f : α → Option β} {b : β}
    (h : o.bind f = some b) : ∃ a, o = some a ∧ f a = some b := by
  cases o with
  | none => exact Option.noConfusion h
  | some a => exact ⟨a, rfl, h⟩

/-- Whatever `strptime` accepts, it validated. -/
theorem dtParse_valid {cs : List Char} {d : DT} (h : dtParse cs = some d) :
    d.validB = true := by
  unfold dtParse at h
  obtain ⟨p1, -, h⟩ := bind_some_elim h
  obtain ⟨y, -, h⟩ := bind_some_elim h
  obtain ⟨p2, -, h⟩ := bind_some_elim h
  obtain ⟨mo, -, h⟩ := bind_some_elim h
  obtain ⟨p3, -, h⟩ := bind_some_elim h
  obtain ⟨dy, -, h⟩ := bind_some_elim h
  obtain ⟨p4, -, h⟩ := bind_some_elim h
  obtain ⟨hr, -, h⟩ := bind_some_elim h
  obtain ⟨p5, -, h⟩ := bind_some_elim h
  obtain ⟨mi, -, h⟩ := bind_some_elim h
  obtain ⟨p6, -, h⟩ := bind_some_elim h
  obtain ⟨se, -, h⟩ := bind_some_elim h
  obtain ⟨mr, -, h⟩ := bind_some_elim h
  dsimp only at h
  split at h
  next hcond =>
    obtain rfl := Option.some.inj h
    exact hcond
  next => exact Option.noConfusion h

/-- `int()` produces integers. -/
theorem coerceInt_shape {v w : PyValue} (h : coerceInt v = some w) : ∃ n, w = .int n := by
  cases v with
  | int n => exact ⟨n, (Option.some.inj h).symm⟩
  | bool b => exact ⟨_, (Option.some.inj h).symm⟩
  | float q => exact ⟨_, (Option.some.inj h).symm⟩
  | str s =>
    simp only [coerceInt, Option.map_eq_some'] at h
    obtain ⟨n, -, rfl⟩ := h
    exact ⟨n, rfl⟩
  | datetime d => exact Option.noConfusion h
  | list l => exact Option.noConfusion h

/-- `float()` produces floats. -/
theorem coerceFloat_shape {v w : PyValue} (h : coerceFloat v = some w) : ∃ q, w = .float q := by
  cases v with
  | int n => exact ⟨_, (Option.some.inj h).symm⟩
  | bool b => exact ⟨_, (Option.some.inj h).symm⟩
  | float q => exact ⟨q, (Option.some.inj h).symm⟩
  | str s =>
    simp only [coerceFloat, Option.map_eq_some'] at h
    obtain ⟨q, -, rfl⟩ := h
    exact ⟨q, rfl⟩
  | datetime d => exact Option.noConfusion h
  | list l => exact Option.noConfusion h

/-- `String.coerce` produces strings. -/
theorem coerceStr_shape {v w : PyValue} (h : coerceStr v = some w) : ∃ s, w = .str s := by
  cases v with
  | bool b => exact ⟨_, (Option.some.inj h).symm⟩
  | int n => exact ⟨_, (Option.some.inj h).symm⟩
  | float q => exact ⟨_, (Option.some.inj h).symm⟩
  | str s => exact ⟨_, (Option.some.inj h).symm⟩
  | datetime d => exact ⟨_, (Option.some.inj h).symm⟩
  | list l => exact ⟨_, (Option.some.inj h).symm⟩

/-- `Boolean.coerce` produces booleans. -/
theorem coerceBool_shape {v w : PyValue} (h : coerceBool v = some w) : ∃ b, w = .bool b := by
  cases v with
  | str s =>
    simp only [coerceBool, Option.map_eq_some'] at h
    obtain ⟨n, -, rfl⟩ := h
    exact ⟨_, rfl⟩
  | int n => exact ⟨_, (Option.some.inj h).symm⟩
  | bool b => exact ⟨b, (Option.some.inj h).symm⟩
  | float q => exact ⟨_, (Option.some.inj h).symm⟩
  | datetime d => exact ⟨_, (Option.some.inj h).symm⟩
  | list l => exact ⟨_, (Option.some.inj h).symm⟩

/-- Round trip for each scalar type: encoding the coerced value to JSON and
coercing the JSON value back is the identity. -/
theorem roundtrip_scalar (t : SType) (v w : PyValue) (hwf : v.wfB = true)
    (h : t.coerce v = some w) : ∃ j, t.to_json w = some j ∧ t.coerce j = some w := by
  cases t with
  | int =>
    obtain ⟨n, rfl⟩ := coerceInt_shape h
    exact ⟨.int n, rfl, rfl⟩
  | float =>
    obtain ⟨q, rfl⟩ := coerceFloat_shape h
    exact ⟨.float q, rfl, rfl⟩
  | str =>
    obtain ⟨s, rfl⟩ := coerceStr_shape h
    have e1 : pyStr (.str s) = s.data := by simp [pyStr]
    have e2 : coerceStr (.str s) = some (.str s) := by
      show some (PyValue.str ⟨pyStr (.str s)⟩) = some (PyValue.str s)
      rw [e1]
    refine ⟨.str s, ?_, e2⟩
    show (coerceStr (.str s)).map (fun w2 => PyValue.str ⟨pyStr w2⟩) =
      some (PyValue.str s)
    rw [e2]
    show some (PyValue.str ⟨pyStr (.str s)⟩) = some (PyValue.str s)
    rw [e1]
  | bool =>
    obtain ⟨b, rfl⟩ := coerceBool_shape h
    exact ⟨.bool b, rfl, rfl⟩
  | datetime =>
    have hshape : ∃ dd, w = .datetime dd ∧ dd.validB = true := by
      cases v with
      | str s =>
        simp only [SType.coerce, coerceDT, Option.map_eq_some'] at h
        obtain ⟨dd, hp, rfl⟩ := h
        exact ⟨dd, rfl, dtParse_valid hp⟩
      | datetime dd =>
        have hw : w = .datetime dd := (Option.some.inj h).symm
        subst hw
        exact ⟨dd, rfl, hwf⟩
      | int n => exact Option.noConfusion h
      | float q => exact Option.noConfusion h
      | bool b => exact Option.noConfusion h
      | list l => exact Option.noConfusion h
    obtain ⟨dd, rfl, hval⟩ := hshape
    refine ⟨.str ⟨dtFormat dd⟩, rfl, ?_⟩
    show (dtParse (dtFormat dd)).map PyValue.datetime = some (.datetime dd)
    rw [dtParse_dtFormat dd hval]
    rfl

/-- Well-formedness of a list value is elementwise. -/
theorem wfListB_mem : ∀ {l : List PyValue}, PyValue.wfListB l = true →
    ∀ v ∈ l, v.wfB = true := by
  intro l
  induction l with
  | nil => intro _ v hv; exact absurd hv (List.not_mem_nil v)
  | cons x l ih =>
    intro h v hv
    have h2 : x.wfB = true ∧ PyValue.wfListB l = true := by
      have h3 := h
      rw [PyValue.wfListB, Bool.and_eq_true] at h3
      exact h3
    rcases List.mem_cons.mp hv with rfl | hv2
    · exact h2.1
    · exact ih h2.2 v hv2

/-- Elementwise round trip for `List` types. -/
theorem coerceEach_roundtrip (t : SType) :
    ∀ (l ws : List PyValue), PyValue.wfListB l = true → coerceEach t l = some ws →
      ∃ js, GType.to_json.toJsonEach t ws = some js ∧ coerceEach t js = some ws := by
  intro l
  induction l with
  | nil =>
    intro ws _ h
    obtain rfl := Option.some.inj h
    exact ⟨[], rfl, rfl⟩
  | cons v l ih =>
    intro ws hwf h
    have hwf2 : v.wfB = true ∧ PyValue.wfListB l = true := by
      have h3 := hwf
      rw [PyValue.wfListB, Bool.and_eq_true] at h3
      exact h3
    rw [coerceEach] at h
    simp only [Option.bind_eq_some, Option.map_eq_some'] at h
    obtain ⟨w1, hw1, ws2, hws2, rfl⟩ := h
    obtain ⟨j1, hj1, hj2⟩ := roundtrip_scalar t v w1 hwf2.1 hw1
    obtain ⟨js2, hjs1, hjs2⟩ := ih ws2 hwf2.2 hws2
    refine ⟨j1 :: js2, ?_, ?_⟩
    · show (t.to_json w1).bind (fun j => (GType.to_json.toJsonEach t ws2).map (j :: ·)) =
        some (j1 :: js2)
      rw [hj1, Option.some_bind, hjs1]
      rfl
    · show (t.coerce j1).bind (fun w2 => (coerceEach t js2).map (w2 :: ·)) =
        some (w1 :: ws2)
      rw [hj2, Option.some_bind, hjs2]
      rfl

/-- Round trip for every declarable type. -/
theorem gtype_roundtrip (t : GType) (v w : PyValue) (hwf : v.wfB = true)
    (h : t.coerce v = some w) : ∃ j, t.to_json w = some j ∧ t.coerce j = some w := by
  cases t with
  | scalar st => exact roundtrip_scalar st v w hwf h
  | list st =>
    have hsingle : ∀ v0 : PyValue, v0.wfB = true →
        ((st.coerce v0).map fun w2 => PyValue.list [w2]) = some w →
        ∃ j, GType.to_json (.list st) w = some j ∧ GType.coerce (.list st) j = some w := by
      intro v0 hwf0 h0
      simp only [Option.map_eq_some'] at h0
      obtain ⟨w1, hw1, rfl⟩ := h0
      obtain ⟨j1, hj1, hj2⟩ := roundtrip_scalar st v0 w1 hwf0 hw1
      refine ⟨.list [j1], ?_, ?_⟩
      · show ((st.to_json w1).bind fun j =>
          (GType.to_json.toJsonEach st []).map (j :: ·)).map PyValue.list =
            some (.list [j1])
        rw [hj1, Option.some_bind]
        rfl
      · show ((st.coerce j1).bind fun w2 =>
          (coerceEach st []).map (w2 :: ·)).map PyValue.list = some (.list [w1])
        rw [hj2, Option.some_bind]
        rfl
    cases v with
    | list l =>
      simp only [GType.coerce, Option.map_eq_some'] at h
      obtain ⟨ws, hws, rfl⟩ := h
      obtain ⟨js, hjs1, hjs2⟩ := coerceEach_roundtrip st l ws hwf hws
      refine ⟨.list js, ?_, ?_⟩
      · show (GType.to_json.toJsonEach st ws).map PyValue.list = some (.list js)
        rw [hjs1]
        rfl
      · show (coerceEach st js).map PyValue.list = some (.list ws)
        rw [hjs2]
        rfl
    | int n => exact hsingle (.int n) hwf h
    | float q => exact hsingle (.float q) hwf h
    | str s => exact hsingle (.str s) hwf h
    | bool b => exact hsingle (.bool b) hwf h
    | datetime dd => exact hsingle (.datetime dd) hwf h

/-- C1: for every type registered in the `TypeManager` under any declared
name — `Integer`, `Float`, `String`, `Boolean`, `DateTime` or a `List` of
these — and every well-formed value its coercion accepts, decoding the
JSON encoding of the coerced value yields the coerced value back:
`decode(encode(coerce(v))) = coerce(v)`. -/
theorem c1_decode_encode_roundtrip (tm : TypeManager) (name : String) (t : GType)
    (hlook : tm.lookup name = some t) (v w : PyValue) (hwf : v.wfB = true)
    (hco : tmCoerce tm name v = some w) :
    ∃ j, tmEncode tm name w = some j ∧ tmDecode tm name j = some w := by
  unfold tmCoerce at hco
  rw [hlook, Option.some_bind] at hco
  obtain ⟨j, h1, h2⟩ := gtype_roundtrip t v w hwf hco
  refine ⟨j, ?_, ?_⟩
  · unfold tmEncode
    rw [hlook, Option.some_bind]
    exact h1
  · unfold tmDecode
    rw [hlook, Option.some_bind]
    exact h2

/-- C1 witness: the `Integer` type declared under `x`, at the value `3`. -/
theorem c1_decode_encode_roundtrip_witness :
    ∃ j, tmEncode [("x", GType.scalar SType.int)] "x" (.int 3) = some j ∧
      tmDecode [("x", GType.scalar SType.int)] "x" j = some (.int 3) :=
  c1_decode_encode_roundtrip [("x", GType.scalar SType.int)] "x"
    (GType.scalar SType.int) rfl (.int 3) (.int 3) rfl rfl

/-- Looking up any registered capture name yields the registered type. -/
theorem addTypes_lookup (mode : CaptureMode) (tp : Option SType) :
    ∀ (gnames : List String) (k : String), k ∈ gnames →
      (addTypes gnames mode tp).lookup k = some (capRegType mode tp) := by
  intro gnames
  induction gnames with
  | nil => intro k h; exact absurd h (List.not_mem_nil k)
  | cons g gs ih =>
    intro k h
    by_cases hk : k = g
    · subst hk
      simp [addTypes, List.lookup]
    · have hmem : k ∈ gs := by
        rcases List.mem_cons.mp h with h1 | h1
        · exact absurd h1 hk
        · exact h1
      have hb : (k == g) = false := beq_eq_false_iff_ne.mpr hk
      have := ih k hmem
      simp only [addTypes, List.map_cons, List.lookup, hb] at this ⊢
      exact this

/-- Inversion of one `CaptureCollection.collect` call under a known
effective type. -/
theorem collect_some_elim (types : List (String × CoType)) (col : Collector)
    (name : String) (v : PyValue) (tpArg : Option CoType) (ct : CoType)
    (heff : tpArg.getD ((types.lookup name).getD CoType.anyT) = ct)
    (col2 : Collector) (h : collect types col name v tpArg = some col2) :
    ∃ w, ct.coerce v = some w ∧
      ((ct.is_list = false ∧ col2 = bindName col name w) ∨
       (ct.is_list = true ∧ ∃ l2, col2 = bindName col name (.list l2) ∧
         ((col name = none ∧ l2 = [w]) ∨
          (∃ l, col name = some (.list l) ∧ l2 = l ++ [w])))) := by
  unfold collect at h
  rw [heff] at h
  obtain ⟨w, hw, h⟩ := bind_some_elim h
  refine ⟨w, hw, ?_⟩
  cases hl : ct.is_list with
  | false =>
    rw [hl] at h
    rw [if_neg Bool.false_ne_true] at h
    exact Or.inl ⟨rfl, (Option.some.inj h).symm⟩
  | true =>
    rw [hl, if_pos rfl] at h
    refine Or.inr ⟨rfl, ?_⟩
    cases hcn : col name with
    | none =>
      rw [hcn] at h
      dsimp only at h
      exact ⟨[w], (Option.some.inj h).symm, Or.inl ⟨rfl, rfl⟩⟩
    | some v0 =>
      rw [hcn] at h
      cases v0 with
      | list l =>
        dsimp only at h
        exact ⟨l ++ [w], (Option.some.inj h).symm, Or.inr ⟨l, rfl, rfl⟩⟩
      | int n => exact Option.noConfusion h
      | float q => exact Option.noConfusion h
      | str s => exact Option.noConfusion h
      | bool b => exact Option.noConfusion h
      | datetime d => exact Option.noConfusion h

/-- One kept match under a scalar effective type: each named group is
written to the collector with its coerced value; nothing else changes. -/
theorem collectMatch_scalar (types : List (String × CoType)) (tpArg : Option CoType)
    (ct : CoType) (hlist : ct.is_list = false) :
    ∀ (m : List (String × String)) (col col2 : Collector),
      (∀ kv ∈ m, tpArg.getD ((types.lookup kv.1).getD CoType.anyT) = ct) →
      (m.map Prod.fst).Nodup →
      collectMatch types tpArg col m = some col2 →
      (∀ k, k ∉ m.map Prod.fst → col2 k = col k) ∧
      (∀ kv ∈ m, ∃ w, ct.coerce (.str kv.2) = some w ∧ col2 kv.1 = some w) := by
  intro m
  induction m with
  | nil =>
    intro col col2 _ _ h
    obtain rfl := Option.some.inj h
    exact ⟨fun k _ => rfl, fun kv hkv => absurd hkv (List.not_mem_nil kv)⟩
  | cons kv0 m ih =>
    intro col col2 heff hnd h
    obtain ⟨k0, v0⟩ := kv0
    rw [collectMatch] at h
    obtain ⟨col1, hc1, h⟩ := bind_some_elim h
    obtain ⟨w, hw, hcase⟩ := collect_some_elim types col k0 (.str v0) tpArg ct
      (heff (k0, v0) (by simp)) col1 hc1
    rcases hcase with ⟨-, rfl⟩ | ⟨hl, -⟩
    swap
    · rw [hlist] at hl
      exact Bool.noConfusion hl
    have hnd1 : (k0 :: m.map Prod.fst).Nodup := by
      rw [List.map_cons] at hnd
      exact hnd
    obtain ⟨hk0, hnd2⟩ := List.nodup_cons.mp hnd1
    obtain ⟨hframe, hvals⟩ := ih (bindName col k0 w) col2
      (fun kv hkv => heff kv (by simp [hkv])) hnd2 h
    constructor
    · intro k hk
      have hk1 : k ∉ m.map Prod.fst := fun hc => hk (by simp [hc])
      have hk2 : k ≠ k0 := fun hc => hk (by simp [hc])
      rw [hframe k hk1]
      show (if k = k0 then some w else col k) = col k
      rw [if_neg hk2]
    · intro kv hkv
      rcases List.mem_cons.mp hkv with rfl | hkv2
      · refine ⟨w, hw, ?_⟩
        rw [hframe k0 hk0]
        show (if k0 = k0 then some w else col k0) = some w
        rw [if_pos rfl]
      · exact hvals kv hkv2

/-- One kept match under a `List` effective type: each named group's list
grows by exactly one element; nothing else changes. -/
theorem collectMatch_list (types : List (String × CoType)) (tpArg : Option CoType)
    (ct : CoType) (hlist : ct.is_list = true) :
    ∀ (m : List (String × String)) (col col2 : Collector),
      (∀ kv ∈ m, tpArg.getD ((types.lookup kv.1).getD CoType.anyT) = ct) →
      (m.map Prod.fst).Nodup →
      collectMatch types tpArg col m = some col2 →
      (∀ k, k ∉ m.map Prod.fst → col2 k = col k) ∧
      (∀ kv ∈ m, ∀ j, listLen col kv.1 = some j → listLen col2 kv.1 = some (j + 1)) := by
  intro m
  induction m with
  | nil =>
    intro col col2 _ _ h
    obtain rfl := Option.some.inj h
    exact ⟨fun k _ => rfl, fun kv hkv => absurd hkv (List.not_mem_nil kv)⟩
  | cons kv0 m ih =>
    intro col col2 heff hnd h
    obtain ⟨k0, v0⟩ := kv0
    rw [collectMatch] at h
    obtain ⟨col1, hc1, h⟩ := bind_some_elim h
    obtain ⟨w, hw, hcase⟩ := collect_some_elim types col k0 (.str v0) tpArg ct
      (heff (k0, v0) (by simp)) col1 hc1
    rcases hcase with ⟨hl, -⟩ | ⟨-, l2, rfl, hl2⟩
    · rw [hlist] at hl
      exact Bool.noConfusion hl
    have hnd1 : (k0 :: m.map Prod.fst).Nodup := by
      rw [List.map_cons] at hnd
      exact hnd
    obtain ⟨hk0, hnd2⟩ := List.nodup_cons.mp hnd1
    obtain ⟨hframe, hvals⟩ := ih (bindName col k0 (.list l2)) col2
      (fun kv hkv => heff kv (by simp [hkv])) hnd2 h
    have hbind0 : bindName col k0 (.list l2) k0 = some (.list l2) := by
      show (if k0 = k0 then some (PyValue.list l2) else col k0) = some (.list l2)
      rw [if_pos rfl]
    constructor
    · intro k hk
      have hk1 : k ∉ m.map Prod.fst := fun hc => hk (by simp [hc])
      have hk2 : k ≠ k0 := fun hc => hk (by simp [hc])
      rw [hframe k hk1]
      show (if k = k0 then some (PyValue.list l2) else col k) = col k
      rw [if_neg hk2]
    · intro kv hkv j hj
      rcases List.mem_cons.mp hkv with rfl | hkv2
      · have hj2 : listLen col k0 = some j := hj
        have hlen : l2.length = j + 1 := by
          rcases hl2 with ⟨hn, rfl⟩ | ⟨l, hsome, rfl⟩
          · unfold listLen at hj2
            rw [hn] at hj2
            have hz : j = 0 := by
              have := Option.some.inj hj2
              omega
            simp [hz]
          · unfold listLen at hj2
            rw [hsome] at hj2
            dsimp only at hj2
            have := Option.some.inj hj2
            simp [← this]
        have hc2k : col2 k0 = some (PyValue.list l2) := by
          rw [hframe k0 hk0]
          exact hbind0
        show listLen col2 k0 = some (j + 1)
        unfold listLen
        rw [hc2k]
        dsimp only
        rw [hlen]
      · have hne : kv.1 ≠ k0 := fun hc => hk0 (hc ▸ (List.mem_map.mpr ⟨kv, hkv2, rfl⟩))
        have hcol1 : bindName col k0 (.list l2) kv.1 = col kv.1 := by
          show (if kv.1 = k0 then some (PyValue.list l2) else col kv.1) = col kv.1
          rw [if_neg hne]
        refine hvals kv hkv2 j ?_
        unfold listLen
        rw [hcol1]
        exact hj

/-- `all` mode: every match adds one element to every named group's
list. -/
theorem collectAllMatches_len (types : List (String × CoType)) (tpArg : Option CoType)
    (ct : CoType) (hlist : ct.is_list = true) (gnames : List String)
    (hnd : gnames.Nodup)
    (heff : ∀ k ∈ gnames, tpArg.getD ((types.lookup k).getD CoType.anyT) = ct) :
    ∀ (mlist : List (List (String × String))) (col col2 : Collector),
      (∀ m ∈ mlist, m.map Prod.fst = gnames) →
      collectAllMatches types tpArg col mlist = some col2 →
      ∀ k ∈ gnames, ∀ j, listLen col k = some j →
        listLen col2 k = some (j + mlist.length) := by
  intro mlist
  induction mlist with
  | nil =>
    intro col col2 _ h k _ j hj
    obtain rfl := Option.some.inj h
    simpa using hj
  | cons m0 rest ih =>
    intro col col2 hkeys h k hk j hj
    rw [collectAllMatches] at h
    obtain ⟨col1, hc1, h⟩ := bind_some_elim h
    have hkeys0 : m0.map Prod.fst = gnames := hkeys m0 (by simp)
    obtain ⟨-, hstep⟩ := collectMatch_list types tpArg ct hlist m0 col col1
      (fun kv hkv => heff kv.1 (hkeys0 ▸ List.mem_map.mpr ⟨kv, hkv, rfl⟩))
      (hkeys0 ▸ hnd) hc1
    obtain ⟨kv, hkv, hfst⟩ := List.mem_map.mp (hkeys0 ▸ hk : k ∈ m0.map Prod.fst)
    have h1 : listLen col1 k = some (j + 1) := hfst ▸ hstep kv hkv j (hfst ▸ hj)
    have h2 := ih col1 col2 (fun m hm => hkeys m (by simp [hm])) h k hk (j + 1) h1
    rw [h2]
    show some (j + 1 + rest.length) = some (j + (rest.length + 1))
    rw [show j + 1 + rest.length = j + (rest.length + 1) from by omega]

/-- The last match is one of the matches. -/
theorem getLast?_mem_list {α : Type} : ∀ {l : List α} {a : α}, l.getLast? = some a → a ∈ l := by
  intro l
  induction l with
  | nil => intro a h; exact Option.noConfusion h
  | cons x l ih =>
    intro a h
    cases l with
    | nil =>
      have : x = a := Option.some.inj h
      simp [this]
    | cons y l2 =>
      have h2 : (y :: l2).getLast? = some a := h
      simp [ih h2]

/-- C2: a capture applied to a stdout string (represented by its list of
match group dictionaries, each carrying the pattern's named groups), with
the collector's types registered by `add_types`.  In `first` mode with no
match nothing is collected, otherwise each named group of the first match
is collected (coerced under the hint, `String` by default); likewise for
`last` with the last match; in `all` mode each named group ends up holding
a list whose length equals the number of matches. -/
theorem c2_capture_modes (gnames : List String) (hnd : gnames.Nodup)
    (tp : Option SType) (mlist : List (List (String × String)))
    (hkeys : ∀ m ∈ mlist, m.map Prod.fst = gnames) (col : Collector) :
    (mlist = [] →
      findIn (addTypes gnames .first tp) .first tp mlist col = some col ∧
      findIn (addTypes gnames .last tp) .last tp mlist col = some col) ∧
    (∀ m rest col2, mlist = m :: rest →
      findIn (addTypes gnames .first tp) .first tp mlist col = some col2 →
      ∀ kv ∈ m, ∃ w, GType.coerce (.scalar (tp.getD .str)) (.str kv.2) = some w ∧
        col2 kv.1 = some w) ∧
    (∀ m col2, mlist.getLast? = some m →
      findIn (addTypes gnames .last tp) .last tp mlist col = some col2 →
      ∀ kv ∈ m, ∃ w, GType.coerce (.scalar (tp.getD .str)) (.str kv.2) = some w ∧
        col2 kv.1 = some w) ∧
    (∀ col2, findIn (addTypes gnames .all tp) .all tp mlist col = some col2 →
      (∀ k ∈ gnames, col k = none) → mlist ≠ [] →
      ∀ k ∈ gnames, ∃ l, col2 k = some (.list l) ∧ l.length = mlist.length) := by
  have heffFL : ∀ mode : CaptureMode, mode ≠ .all → ∀ k ∈ gnames,
      (tp.map fun t => CoType.typed (.scalar t)).getD
        (((addTypes gnames mode tp).lookup k).getD CoType.anyT) =
      CoType.typed (.scalar (tp.getD .str)) := by
    intro mode hmode k hk
    rw [addTypes_lookup mode tp gnames k hk]
    cases tp with
    | none =>
      show capRegType mode none = _
      cases mode with
      | all => exact absurd rfl hmode
      | first => rfl
      | last => rfl
    | some t => rfl
  have heffA : ∀ k ∈ gnames,
      (tp.map fun t => CoType.typed (.list t)).getD
        (((addTypes gnames .all tp).lookup k).getD CoType.anyT) =
      CoType.typed (.list (tp.getD .str)) := by
    intro k hk
    rw [addTypes_lookup .all tp gnames k hk]
    cases tp with
    | none => rfl
    | some t => rfl
  refine ⟨?_, ?_, ?_, ?_⟩
  · rintro rfl
    exact ⟨rfl, rfl⟩
  · rintro m rest col2 rfl hfind kv hkv
    have hm : m.map Prod.fst = gnames := hkeys m (by simp)
    have hfind2 : collectMatch (addTypes gnames .first tp)
        (tp.map fun t => CoType.typed (.scalar t)) col m = some col2 := hfind
    obtain ⟨-, hvals⟩ := collectMatch_scalar (addTypes gnames .first tp)
      (tp.map fun t => CoType.typed (.scalar t))
      (CoType.typed (.scalar (tp.getD .str))) rfl m col col2
      (fun kv2 hkv2 => heffFL .first (by intro hc; exact CaptureMode.noConfusion hc)
        kv2.1 (hm ▸ List.mem_map.mpr ⟨kv2, hkv2, rfl⟩))
      (hm ▸ hnd) hfind2
    exact hvals kv hkv
  · intro m col2 hlast hfind kv hkv
    have hm : m.map Prod.fst = gnames := hkeys m (getLast?_mem_list hlast)
    have hfind2 : collectMatch (addTypes gnames .last tp)
        (tp.map fun t => CoType.typed (.scalar t)) col m = some col2 := by
      rw [findIn, hlast] at hfind
      exact hfind
    obtain ⟨-, hvals⟩ := collectMatch_scalar (addTypes gnames .last tp)
      (tp.map fun t => CoType.typed (.scalar t))
      (CoType.typed (.scalar (tp.getD .str))) rfl m col col2
      (fun kv2 hkv2 => heffFL .last (by intro hc; exact CaptureMode.noConfusion hc)
        kv2.1 (hm ▸ List.mem_map.mpr ⟨kv2, hkv2, rfl⟩))
      (hm ▸ hnd) hfind2
    exact hvals kv hkv
  · intro col2 hfind hcol hne k hk
    have hlen := collectAllMatches_len (addTypes gnames .all tp)
      (tp.map fun t => CoType.typed (.list t))
      (CoType.typed (.list (tp.getD .str))) rfl gnames hnd heffA mlist col col2
      hkeys hfind k hk 0 (by unfold listLen; rw [hcol k hk])
    unfold listLen at hlen
    cases hc2 : col2 k with
    | none =>
      rw [hc2] at hlen
      have : (0 : ℕ) = 0 + mlist.length := Option.some.inj hlen
      have hml : mlist.length = 0 := by omega
      exact absurd (List.length_eq_zero.mp hml) hne
    | some v0 =>
      rw [hc2] at hlen
      cases v0 with
      | list l =>
        dsimp only at hlen
        refine ⟨l, rfl, ?_⟩
        have := Option.some.inj hlen
        omega
      | int n => exact Option.noConfusion hlen
      | float q => exact Option.noConfusion hlen
      | str s => exact Option.noConfusion hlen
      | bool b => exact Option.noConfusion hlen
      | datetime d => exact Option.noConfusion hlen

/-- C2 witness: an `all`-mode integer capture over two matches collects a
two-element list. -/
theorem c2_capture_modes_witness :
    ∃ col2, findIn (addTypes ["a"] .all (some .int)) .all (some .int)
        [[("a", "1")], [("a", "2")]] (fun _ => none) = some col2 ∧
      ∃ l, col2 "a" = some (.list l) ∧ l.length = 2 := by
  refine ⟨_, rfl, ?_⟩
  exact (c2_capture_modes ["a"] (by simp) (some .int) [[("a", "1")], [("a", "2")]]
    (by simp) (fun _ => none)).2.2.2 _ rfl (fun k _ => rfl) (by simp) "a" (by simp)

end Grevling
